import Mathlib

/-
Verification of the dependency-aware deployment engine of the
Notebook-Deployment repository (Deploy/Common/workspace_item_utilities.py and
Deploy/Common/deployment_main.py), as a shallow embedding in Lean 4.

Strings are modelled as lists of characters (Text).  Python dictionaries are
modelled as association lists in insertion order, matching CPython's ordered
dict / collections.defaultdict semantics.  Functions that perform I/O (HTTP
calls, file reads) are modelled by passing their observable inputs/outputs
explicitly; stateful loops are modelled with structural fuel that provably
suffices, so that every definition is executable.
-/

namespace NotebookDeployment

/-! ## Basic text machinery (Python `str` as `List Char`) -/

abbrev Text := List Char

/-- Python `pat in s` / `str.startswith` building block: `pat` matches at the
start of `s`. -/
def isPre : Text → Text → Bool
  | [], _ => true
  | _ :: _, [] => false
  | c :: p, d :: s => c = d && isPre p s

/-- Python substring containment `pat in s`. -/
def occursIn (pat s : Text) : Bool :=
  s.tails.any (fun t => isPre pat t)

theorem isPre_nil_right (p : Text) (h : p ≠ []) : isPre p [] = false := by
  cases p with
  | nil => exact absurd rfl h
  | cons c r => rfl

theorem isPre_iff_append (p s : Text) : isPre p s = true ↔ ∃ t, s = p ++ t := by
  induction p generalizing s with
  | nil => simp [isPre]
  | cons c p ih =>
    cases s with
    | nil =>
      simp only [isPre]
      constructor
      · intro h; cases h
      · rintro ⟨t, ht⟩; cases ht
    | cons d s =>
      simp only [isPre, Bool.and_eq_true, decide_eq_true_eq, ih]
      constructor
      · rintro ⟨rfl, t, rfl⟩; exact ⟨t, rfl⟩
      · rintro ⟨t, ht⟩
        injection ht with h1 h2
        exact ⟨h1.symm, t, h2⟩

theorem occursIn_nil (pat : Text) (h : pat ≠ []) : occursIn pat [] = false := by
  simp [occursIn, List.tails, isPre_nil_right pat h]

theorem occursIn_cons (pat : Text) (c : Char) (s : Text) :
    occursIn pat (c :: s) = (isPre pat (c :: s) || occursIn pat s) := by
  simp [occursIn, List.tails]

/-! ## Python `str.replace` (all non-overlapping occurrences, left to right)

`raw_file.replace(logical_id, item_guid)` in `replace_logical_ids`
(workspace_item_utilities.py lines 723 and 726).  Defined with structural fuel;
each step consumes at least one input character when the pattern is non-empty,
so fuel `s.length` is exact. -/

def pyReplaceFuel : Nat → Text → Text → Text → Text
  | 0, s, _, _ => s
  | fuel + 1, s, pat, rep =>
    if pat ≠ [] && isPre pat s then
      rep ++ pyReplaceFuel fuel (s.drop pat.length) pat rep
    else
      match s with
      | [] => []
      | c :: r => c :: pyReplaceFuel fuel r pat rep

def pyReplace (s pat rep : Text) : Text :=
  pyReplaceFuel s.length s pat rep

theorem replCond_nil (pat : Text) : (pat ≠ [] && isPre pat []) = false := by
  cases pat with
  | nil => simp
  | cons c p => simp [isPre]

theorem pyReplaceFuel_pos (f : Nat) (s pat rep : Text)
    (h : (pat ≠ [] && isPre pat s) = true) :
    pyReplaceFuel (f + 1) s pat rep = rep ++ pyReplaceFuel f (s.drop pat.length) pat rep := by
  simp only [pyReplaceFuel, h, if_true]

theorem pyReplaceFuel_neg_nil (f : Nat) (pat rep : Text) :
    pyReplaceFuel (f + 1) [] pat rep = [] := by
  simp only [pyReplaceFuel, replCond_nil]
  rw [if_neg Bool.false_ne_true]

theorem pyReplaceFuel_neg_cons (f : Nat) (c : Char) (r pat rep : Text)
    (h : (pat ≠ [] && isPre pat (c :: r)) = false) :
    pyReplaceFuel (f + 1) (c :: r) pat rep = c :: pyReplaceFuel f r pat rep := by
  simp only [pyReplaceFuel, h]
  rw [if_neg Bool.false_ne_true]

theorem pat_length_pos (pat : Text) (h : (pat ≠ [] && isPre pat s) = true) :
    1 ≤ pat.length := by
  rcases Bool.and_eq_true .. |>.mp h with ⟨h1, _⟩
  have : pat ≠ [] := of_decide_eq_true h1
  cases pat with
  | nil => exact absurd rfl this
  | cons _ _ => exact Nat.le_add_left 1 _

/-- With fuel at least `s.length` the fuel never runs out: any two sufficient
fuels give the same result. -/
theorem pyReplaceFuel_fuel_irrel (pat rep : Text) :
    ∀ fuel₁ fuel₂ s, s.length ≤ fuel₁ → s.length ≤ fuel₂ →
      pyReplaceFuel fuel₁ s pat rep = pyReplaceFuel fuel₂ s pat rep := by
  intro fuel₁
  induction fuel₁ with
  | zero =>
    intro fuel₂ s h1 _
    have : s = [] := List.eq_nil_of_length_eq_zero (Nat.le_zero.mp h1)
    subst this
    cases fuel₂ with
    | zero => rfl
    | succ f => rw [pyReplaceFuel_neg_nil]; rfl
  | succ f ih =>
    intro fuel₂ s h1 h2
    cases fuel₂ with
    | zero =>
      have : s = [] := List.eq_nil_of_length_eq_zero (Nat.le_zero.mp h2)
      subst this
      rw [pyReplaceFuel_neg_nil]; rfl
    | succ f₂ =>
      by_cases hp : (pat ≠ [] && isPre pat s) = true
      · rw [pyReplaceFuel_pos f s pat rep hp, pyReplaceFuel_pos f₂ s pat rep hp]
        have hlen := pat_length_pos pat hp
        have hd : (s.drop pat.length).length ≤ f := by
          rw [List.length_drop]; omega
        have hd2 : (s.drop pat.length).length ≤ f₂ := by
          rw [List.length_drop]; omega
        rw [ih f₂ _ hd hd2]
      · rw [Bool.not_eq_true] at hp
        cases s with
        | nil => rw [pyReplaceFuel_neg_nil, pyReplaceFuel_neg_nil]
        | cons c r =>
          rw [pyReplaceFuel_neg_cons f c r pat rep hp,
              pyReplaceFuel_neg_cons f₂ c r pat rep hp]
          have hr : r.length ≤ f := by simp at h1; omega
          have hr2 : r.length ≤ f₂ := by simp at h2; omega
          rw [ih f₂ r hr hr2]

theorem pyReplace_eq_fuel (s pat rep : Text) (fuel : Nat) (h : s.length ≤ fuel) :
    pyReplace s pat rep = pyReplaceFuel fuel s pat rep :=
  pyReplaceFuel_fuel_irrel pat rep s.length fuel s (Nat.le_refl _) h

/-- Unfolding equation of `pyReplace` in the match case. -/
theorem pyReplace_match (s pat rep : Text) (h : (pat ≠ [] && isPre pat s) = true) :
    pyReplace s pat rep = rep ++ pyReplace (s.drop pat.length) pat rep := by
  cases s with
  | nil => rw [replCond_nil] at h; cases h
  | cons c r =>
    show pyReplaceFuel (c :: r).length (c :: r) pat rep = _
    rw [List.length_cons, pyReplaceFuel_pos r.length (c :: r) pat rep h]
    congr 1
    refine (pyReplace_eq_fuel _ pat rep r.length ?_).symm
    rw [List.length_drop]
    have := pat_length_pos pat h
    simp only [List.length_cons]
    omega

/-- Unfolding equation of `pyReplace` in the step case. -/
theorem pyReplace_step (c : Char) (r pat rep : Text)
    (h : (pat ≠ [] && isPre pat (c :: r)) = false) :
    pyReplace (c :: r) pat rep = c :: pyReplace r pat rep := by
  show pyReplaceFuel (c :: r).length (c :: r) pat rep = _
  rw [List.length_cons, pyReplaceFuel_neg_cons r.length c r pat rep h]
  rfl

theorem pyReplace_nil (pat rep : Text) : pyReplace [] pat rep = [] := rfl

/-! ## `replace_logical_ids` (workspace_item_utilities.py lines 693-732)

The repository table is flattened to a list of `(logical_id, guid)` records in
the iteration order of the nested dictionaries.  Occurrence testing, the
missing-guid error, and the sequential in-place rewriting of `raw_file`
mirror the source loop; the reserved all-zero placeholder is replaced by the
workspace id afterwards (line 726). -/

structure RepoItem where
  logical_id : Text
  guid : Text
  deriving DecidableEq, Repr

def PLACEHOLDER : Text :=
  ['0','0','0','0','0','0','0','0','-','0','0','0','0','-','0','0','0','0','-',
   '0','0','0','0','-','0','0','0','0','0','0','0','0','0','0','0','0']

/-- The item loop of `replace_logical_ids`: for each item, if the (non-empty)
logical id occurs in the current text, require a non-empty guid and substitute,
else move on. -/
def replaceItemsLoop : List RepoItem → Text → Except Text Text
  | [], t => .ok t
  | it :: rest, t =>
    if it.logical_id ≠ [] && occursIn it.logical_id t then
      if it.guid = [] then
        .error it.logical_id
      else
        replaceItemsLoop rest (pyReplace t it.logical_id it.guid)
    else
      replaceItemsLoop rest t

def replace_logical_ids (items : List RepoItem) (raw_file : Text)
    (workspace_id : Text) : Except Text Text :=
  match replaceItemsLoop items raw_file with
  | .error e => .error e
  | .ok t => .ok (pyReplace t PLACEHOLDER workspace_id)

/-! ### Specification of `str.replace`: decomposition into pattern-free parts

`pyReplace s pat rep` rewrites exactly the (leftmost, non-overlapping)
occurrences of `pat`: `s` splits into segments free of `pat`, joined by `pat`,
and the output is the same segments joined by `rep`. -/

def joinSep (sep : Text) : List Text → Text
  | [] => []
  | [p] => p
  | p :: ps => p ++ sep ++ joinSep sep ps

theorem joinSep_cons (sep p : Text) (q : Text) (ps : List Text) :
    joinSep sep (p :: q :: ps) = p ++ sep ++ joinSep sep (q :: ps) := rfl

theorem joinSep_cons_ne (sep p : Text) (ps : List Text) (h : ps ≠ []) :
    joinSep sep (p :: ps) = p ++ sep ++ joinSep sep ps := by
  cases ps with
  | nil => exact absurd rfl h
  | cons q qs => rfl

theorem joinSep_cons_char (sep : Text) (c : Char) (p : Text) (ps : List Text) :
    joinSep sep ((c :: p) :: ps) = c :: joinSep sep (p :: ps) := by
  cases ps with
  | nil => rfl
  | cons q qs => simp [joinSep]

theorem pyReplace_decomp (pat rep : Text) (hne : pat ≠ []) :
    ∀ n s, s.length ≤ n → ∃ parts : List Text, parts ≠ [] ∧
      s = joinSep pat parts ∧
      pyReplace s pat rep = joinSep rep parts ∧
      ∀ p ∈ parts, occursIn pat p = false := by
  intro n
  induction n with
  | zero =>
    intro s hs
    have : s = [] := List.eq_nil_of_length_eq_zero (Nat.le_zero.mp hs)
    subst this
    exact ⟨[[]], by simp, rfl, by rw [pyReplace_nil]; rfl,
      by intro p hp; simp at hp; subst hp; exact occursIn_nil pat hne⟩
  | succ m ih =>
    intro s hs
    by_cases hp : isPre pat s = true
    · obtain ⟨t, rfl⟩ := (isPre_iff_append pat s).mp hp
      have hcond : (pat ≠ [] && isPre pat (pat ++ t)) = true := by
        simp [hne, hp]
      have hlenpat : 1 ≤ pat.length := pat_length_pos pat hcond
      have ht : t.length ≤ m := by
        simp only [List.length_append] at hs
        omega
      obtain ⟨parts, hne', heq, hrep, hfree⟩ := ih t ht
      refine ⟨[] :: parts, by simp, ?_, ?_, ?_⟩
      · rw [joinSep_cons_ne pat [] parts hne', List.nil_append, ← heq]
      · rw [pyReplace_match _ pat rep hcond, List.drop_left,
          joinSep_cons_ne rep [] parts hne', List.nil_append, hrep]
      · intro p hmem
        rcases List.mem_cons.mp hmem with h1 | h1
        · subst h1; exact occursIn_nil pat hne
        · exact hfree p h1
    · cases s with
      | nil =>
        exact ⟨[[]], by simp, rfl, by rw [pyReplace_nil]; rfl,
          by intro p hmem; simp at hmem; subst hmem; exact occursIn_nil pat hne⟩
      | cons c r =>
        have hr : r.length ≤ m := by simp at hs; omega
        obtain ⟨parts, hne', heq, hrep, hfree⟩ := ih r hr
        obtain ⟨p₀, ps, rfl⟩ := List.exists_cons_of_ne_nil hne'
        have hcond : (pat ≠ [] && isPre pat (c :: r)) = false := by
          rw [Bool.not_eq_true] at hp
          simp [hp]
        refine ⟨(c :: p₀) :: ps, by simp, ?_, ?_, ?_⟩
        · rw [joinSep_cons_char pat c p₀ ps, ← heq]
        · rw [pyReplace_step c r pat rep hcond,
            joinSep_cons_char rep c p₀ ps, hrep]
        · intro p hmem
          rcases List.mem_cons.mp hmem with h1 | h1
          · subst h1
            rw [occursIn_cons]
            have hp₀free : occursIn pat p₀ = false := hfree p₀ (by simp)
            rw [hp₀free, Bool.or_false]
            -- an occurrence of `pat` at the head of `c :: p₀` would be an
            -- occurrence at the head of `c :: r`, since `p₀` is a prefix of `r`
            by_contra hco
            rw [Bool.not_eq_false] at hco
            obtain ⟨t, ht⟩ := (isPre_iff_append pat (c :: p₀)).mp hco
            have hpref : ∃ u, r = p₀ ++ u := by
              cases ps with
              | nil => exact ⟨[], by simp [heq, joinSep]⟩
              | cons q qs =>
                exact ⟨pat ++ joinSep pat (q :: qs), by
                  rw [heq, joinSep_cons]; simp⟩
            obtain ⟨u, hu⟩ := hpref
            have : isPre pat (c :: r) = true := by
              rw [isPre_iff_append]
              refine ⟨t ++ u, ?_⟩
              rw [hu, ← List.append_assoc, ← ht]
              rfl
            rw [this] at hp
            exact hp rfl
          · exact hfree p (List.mem_cons_of_mem _ h1)

/-! ### Claim C4 -/

/-- C4: the claim predicts that, with the table mapping logical id "X" to live
id "YZ" and "Y" to "Q", the text "X" becomes "YZ" (every occurrence of each
logical id replaced by its own guid, all other content unchanged).  The
substitutions are sequential, so the output of the earlier substitution is
rewritten again by the later one: the code produces "QZ", not "YZ". -/
theorem c4_counterexample :
    replace_logical_ids
        [⟨['X'], ['Y', 'Z']⟩, ⟨['Y'], ['Q']⟩] ['X'] ['W']
      = .ok ['Q', 'Z'] ∧
    replace_logical_ids
        [⟨['X'], ['Y', 'Z']⟩, ⟨['Y'], ['Q']⟩] ['X'] ['W']
      ≠ .ok ['Y', 'Z'] := by
  constructor
  · rfl
  · intro h
    rw [show replace_logical_ids [⟨['X'], ['Y', 'Z']⟩, ⟨['Y'], ['Q']⟩]
        ['X'] ['W'] = .ok ['Q', 'Z'] from rfl] at h
    simp at h

/-- C4 (amended): for a table with a single resolved item mapping non-empty
logical id `L` to non-empty live id `G`, `replace_logical_ids` replaces every
(leftmost, non-overlapping) occurrence of `L` in the text by `G`, then every
occurrence of the all-zero placeholder by the workspace id, and leaves all
other content byte-identical: the text splits into `L`-free parts joined by
`L`; the intermediate result is those parts joined by `G`, which splits into
placeholder-free parts joined by the placeholder; the output is those parts
joined by the workspace id. -/
theorem c4_single_item_replacement (L G raw ws : Text)
    (hL : L ≠ []) (hG : G ≠ []) :
    ∃ parts qparts : List Text,
      raw = joinSep L parts ∧
      (∀ p ∈ parts, occursIn L p = false) ∧
      joinSep G parts = joinSep PLACEHOLDER qparts ∧
      (∀ q ∈ qparts, occursIn PLACEHOLDER q = false) ∧
      replace_logical_ids [⟨L, G⟩] raw ws = .ok (joinSep ws qparts) := by
  have hPH : PLACEHOLDER ≠ [] := by intro h; cases h
  -- first compute the item loop's output and its decomposition
  have hmain : ∃ T parts, replaceItemsLoop [⟨L, G⟩] raw = .ok T ∧
      raw = joinSep L parts ∧ (∀ p ∈ parts, occursIn L p = false) ∧
      T = joinSep G parts := by
    by_cases hocc : occursIn L raw = true
    · obtain ⟨parts, hpne, heq, hrep, hfree⟩ :=
        pyReplace_decomp L G hL raw.length raw (Nat.le_refl _)
      refine ⟨pyReplace raw L G, parts, ?_, heq, hfree, hrep⟩
      have hcondT : ((⟨L, G⟩ : RepoItem).logical_id ≠ []
          && occursIn (⟨L, G⟩ : RepoItem).logical_id raw) = true := by
        simp [hL, hocc]
      simp only [replaceItemsLoop, hcondT, if_true]
      rw [if_neg hG]
    · rw [Bool.not_eq_true] at hocc
      have hcondF : ((⟨L, G⟩ : RepoItem).logical_id ≠ []
          && occursIn (⟨L, G⟩ : RepoItem).logical_id raw) = false := by
        simp [hocc]
      refine ⟨raw, [raw], ?_, by simp [joinSep], ?_, by simp [joinSep]⟩
      · simp only [replaceItemsLoop, hcondF]
        rw [if_neg Bool.false_ne_true]
      · intro p hmem
        simp at hmem
        subst hmem
        exact hocc
  obtain ⟨T, parts, hloop, heq, hfree, hT⟩ := hmain
  obtain ⟨qparts, hqne, hTq, hqrep, hqfree⟩ :=
    pyReplace_decomp PLACEHOLDER ws hPH T.length T (Nat.le_refl _)
  refine ⟨parts, qparts, heq, hfree, by rw [← hT, hTq], hqfree, ?_⟩
  simp only [replace_logical_ids, hloop, hqrep]

/-- C4 witness: the single-item decomposition at the table `X ↦ Y`, text
`aXb` and workspace id `W`. -/
theorem c4_single_item_replacement_witness :
    ∃ parts qparts : List Text,
      ['a', 'X', 'b'] = joinSep ['X'] parts ∧
      (∀ p ∈ parts, occursIn ['X'] p = false) ∧
      joinSep ['Y'] parts = joinSep PLACEHOLDER qparts ∧
      (∀ q ∈ qparts, occursIn PLACEHOLDER q = false) ∧
      replace_logical_ids [⟨['X'], ['Y']⟩] ['a', 'X', 'b'] ['W']
        = .ok (joinSep ['W'] qparts) :=
  c4_single_item_replacement ['X'] ['Y'] ['a', 'X', 'b'] ['W']
    (by decide) (by decide)

/-! ### Claim C5 -/

/-- The state of the raw file after processing a prefix of the item list,
counting only the substitutions that actually happen (an unresolved item whose
logical id occurs would error out in the real loop; before the first such item
the two evolutions agree). -/
def applyResolved : List RepoItem → Text → Text
  | [], t => t
  | it :: rest, t =>
    if it.logical_id ≠ [] && occursIn it.logical_id t && it.guid ≠ [] then
      applyResolved rest (pyReplace t it.logical_id it.guid)
    else
      applyResolved rest t

/-- Some repository item with a non-empty logical id and an empty guid hits
the text as rewritten by the substitutions of the items before it. -/
def unresolvedHit (items : List RepoItem) (raw : Text) : Prop :=
  ∃ i, ∃ h : i < items.length,
    (items.get ⟨i, h⟩).logical_id ≠ [] ∧
    (items.get ⟨i, h⟩).guid = [] ∧
    occursIn (items.get ⟨i, h⟩).logical_id
      (applyResolved (items.take i) raw) = true

/-- C5: the claim predicts that no error is raised when no unresolved logical
id occurs in the input text.  With the table mapping "b" (resolved, guid "a")
and "aa" (unresolved, empty guid), and input text "ab": "aa" does not occur in
"ab", yet the first substitution rewrites the text to "aa", which the second,
unresolved item then hits, so the code raises the is-not-yet-deployed error. -/
theorem c5_counterexample :
    occursIn ['a', 'a'] ['a', 'b'] = false ∧
    replace_logical_ids
        [⟨['b'], ['a']⟩, ⟨['a', 'a'], []⟩] ['a', 'b'] ['w']
      = .error ['a', 'a'] := by
  constructor
  · rfl
  · rfl

/-- C5 (amended): `replace_logical_ids` raises an error iff some repository
item with a non-empty logical id and an empty/missing guid has its logical id
occurring in the text *as already rewritten by the substitutions of the items
processed before it* (the occurrence test runs against the progressively
rewritten text, not against the original input). -/
theorem c5_error_iff_unresolved_hit (items : List RepoItem) (raw ws : Text) :
    (∃ e, replace_logical_ids items raw ws = .error e) ↔
      unresolvedHit items raw := by
  have key : ∀ (its : List RepoItem) (t : Text),
      (∃ e, replaceItemsLoop its t = .error e) ↔ unresolvedHit its t := by
    intro its
    induction its with
    | nil =>
      intro t
      constructor
      · rintro ⟨e, he⟩; cases he
      · rintro ⟨i, hi, _⟩; cases hi
    | cons it rest ih =>
      intro t
      by_cases hcond : (it.logical_id ≠ [] && occursIn it.logical_id t) = true
      · have hLne : it.logical_id ≠ [] := by
          rcases Bool.and_eq_true .. |>.mp hcond with ⟨h1, _⟩
          exact of_decide_eq_true h1
        have hOcc : occursIn it.logical_id t = true :=
          (Bool.and_eq_true .. |>.mp hcond).2
        by_cases hg : it.guid = []
        · -- the head item itself errors
          constructor
          · intro _
            exact ⟨0, Nat.succ_pos _, hLne, hg, by simpa using hOcc⟩
          · intro _
            refine ⟨it.logical_id, ?_⟩
            simp only [replaceItemsLoop, hcond, if_true, hg, if_pos rfl]
        · -- the head item substitutes and we recurse
          have hstep : replaceItemsLoop (it :: rest) t =
              replaceItemsLoop rest (pyReplace t it.logical_id it.guid) := by
            simp only [replaceItemsLoop, hcond, if_true]
            rw [if_neg hg]
          have happ : ∀ pre : List RepoItem,
              applyResolved (it :: pre) t =
                applyResolved pre (pyReplace t it.logical_id it.guid) := by
            intro pre
            have : (it.logical_id ≠ [] && occursIn it.logical_id t
                && it.guid ≠ []) = true := by
              simp [hLne, hOcc, hg]
            simp only [applyResolved, this, if_true]
          rw [hstep, ih (pyReplace t it.logical_id it.guid)]
          constructor
          · rintro ⟨i, hi, h1, h2, h3⟩
            refine ⟨i + 1, Nat.succ_lt_succ hi, h1, h2, ?_⟩
            rw [List.take_succ_cons, happ]
            exact h3
          · rintro ⟨i, hi, h1, h2, h3⟩
            match i, hi with
            | 0, _ =>
              exfalso
              simp only [List.get] at h2
              exact hg h2
            | i + 1, hi =>
              refine ⟨i, Nat.lt_of_succ_lt_succ hi, h1, h2, ?_⟩
              rw [List.take_succ_cons, happ] at h3
              exact h3
      · -- the head item is skipped
        rw [Bool.not_eq_true] at hcond
        have hstep : replaceItemsLoop (it :: rest) t = replaceItemsLoop rest t := by
          simp only [replaceItemsLoop, hcond]
          rw [if_neg Bool.false_ne_true]
        have happ : ∀ pre : List RepoItem,
            applyResolved (it :: pre) t = applyResolved pre t := by
          intro pre
          have : (it.logical_id ≠ [] && occursIn it.logical_id t
              && it.guid ≠ []) = false := by
            rw [Bool.and_eq_false_iff]
            left
            exact hcond
          simp only [applyResolved, this]
          rw [if_neg Bool.false_ne_true]
        rw [hstep, ih t]
        constructor
        · rintro ⟨i, hi, h1, h2, h3⟩
          refine ⟨i + 1, Nat.succ_lt_succ hi, h1, h2, ?_⟩
          rw [List.take_succ_cons, happ]
          exact h3
        · rintro ⟨i, hi, h1, h2, h3⟩
          match i, hi with
          | 0, _ =>
            exfalso
            simp only [List.get, List.take_zero, applyResolved] at h1 h2 h3
            rw [Bool.and_eq_false_iff] at hcond
            rcases hcond with hc | hc
            · exact (of_decide_eq_false hc) h1
            · rw [h3] at hc; cases hc
          | i + 1, hi =>
            refine ⟨i, Nat.lt_of_succ_lt_succ hi, h1, h2, ?_⟩
            rw [List.take_succ_cons, happ] at h3
            exact h3
  constructor
  · rintro ⟨e, he⟩
    rw [← key items raw]
    refine ⟨e, ?_⟩
    unfold replace_logical_ids at he
    cases hlp : replaceItemsLoop items raw with
    | error e' => rw [hlp] at he; cases he; rfl
    | ok t => rw [hlp] at he; cases he
  · intro h
    obtain ⟨e, he⟩ := (key items raw).mpr h
    exact ⟨e, by simp only [replace_logical_ids, he]⟩

/-! ## Create-or-update keying (claim C6)

`create_notebook` (workspace_item_utilities.py lines 547-638) computes
`notebook_key = notebook_name + ".Notebook"` and posts an updateDefinition
request against the existing item's id when the key is present in
`existing_items`, a create request otherwise.  `existing_items` is built in
`deploy_artifacts` (line 1782) as a dict keyed by `displayName + "." + type`.
`create_data_pipeline` (lines 1126-1240) posts to the create endpoint
unconditionally. -/

structure WsItem where
  id : String
  displayName : String
  type : String
  description : String
  deriving DecidableEq, Repr

/-- The `existing_items` dict of `deploy_artifacts` (line 1782). -/
def existingItemsMap (items : List WsItem) : List (String × WsItem) :=
  items.map (fun it => (it.displayName ++ "." ++ it.type, it))

def lookupItem (m : List (String × WsItem)) (k : String) : Option WsItem :=
  (m.find? (fun p => p.1 = k)).map (fun p => p.2)

inductive UpsertRequest where
  | create (displayName ty : String)
  | update (itemId : String)
  deriving DecidableEq, Repr

/-- The request issued by `create_notebook` (lines 604-614). -/
def create_notebook_request (existing : List (String × WsItem))
    (notebook_name : String) : UpsertRequest :=
  match lookupItem existing (notebook_name ++ ".Notebook") with
  | some it => .update it.id
  | none => .create notebook_name "Notebook"

/-- The request issued by `create_data_pipeline` (lines 1215-1224): a POST to
the create-items endpoint, with no lookup of the existing item list. -/
def create_data_pipeline_request (_existing : List (String × WsItem))
    (item_name item_type : String) : UpsertRequest :=
  .create item_name item_type

/-- C6: the claim predicts an update request for *every* previously-created
artifact.  For data pipelines this fails: even when the workspace's current
item list contains the pipeline under the key displayName + "." + type,
`create_data_pipeline` issues a create request, not an update against the
existing identifier. -/
theorem c6_counterexample :
    create_data_pipeline_request
        (existingItemsMap [⟨"g1", "P", "DataPipeline", ""⟩]) "P" "DataPipeline"
      = .create "P" "DataPipeline" ∧
    create_data_pipeline_request
        (existingItemsMap [⟨"g1", "P", "DataPipeline", ""⟩]) "P" "DataPipeline"
      ≠ .update "g1" ∧
    lookupItem (existingItemsMap [⟨"g1", "P", "DataPipeline", ""⟩])
        ("P" ++ "." ++ "DataPipeline")
      = some ⟨"g1", "P", "DataPipeline", ""⟩ := by
  refine ⟨rfl, ?_, rfl⟩
  intro h
  cases h

/-- C6 (amended): redeploying against a workspace that already contains the
artifacts issues an update, not a duplicate create, keyed by
displayName + "." + type against the current item list, for every
previously-created *notebook*; `create_data_pipeline` always issues a create
request (pipeline idempotence relies on the prior deletion of old pipelines).
For notebooks: if some item of the workspace item list carries the key
`name + ".Notebook"`, the request is an update against that item's id;
if no item does, the request is a create. -/
theorem c6_notebook_update_keyed (items : List WsItem) (name : String) :
    (∀ it, it ∈ items → it.displayName ++ "." ++ it.type = name ++ ".Notebook" →
      (∃ it₀, it₀ ∈ items ∧
        it₀.displayName ++ "." ++ it₀.type = name ++ ".Notebook" ∧
        create_notebook_request (existingItemsMap items) name = .update it₀.id)) ∧
    ((∀ it, it ∈ items → it.displayName ++ "." ++ it.type ≠ name ++ ".Notebook") →
      create_notebook_request (existingItemsMap items) name
        = .create name "Notebook") := by
  constructor
  · intro it hmem hkey
    have hfind : ∃ p, (existingItemsMap items).find?
        (fun p => p.1 = name ++ ".Notebook") = some p := by
      have : ((name ++ ".Notebook", it) : String × WsItem) ∈ existingItemsMap items := by
        simp only [existingItemsMap, List.mem_map]
        exact ⟨it, hmem, by rw [hkey]⟩
      rcases hf : (existingItemsMap items).find? (fun p => p.1 = name ++ ".Notebook") with
        _ | p
      · exfalso
        have := List.find?_eq_none.mp hf _ this
        simp at this
      · exact ⟨p, hf⟩
    obtain ⟨p, hp⟩ := hfind
    have hpmem : p ∈ existingItemsMap items := List.mem_of_find?_eq_some hp
    have hpkey : p.1 = name ++ ".Notebook" := by
      have := List.find?_some hp
      simpa using this
    simp only [existingItemsMap, List.mem_map] at hpmem
    obtain ⟨it₀, hmem₀, hpe⟩ := hpmem
    refine ⟨it₀, hmem₀, ?_, ?_⟩
    · rw [← hpkey, ← hpe]
    · simp only [create_notebook_request, lookupItem, hp]
      rw [← hpe]
      rfl
  · intro hnone
    have hfind : (existingItemsMap items).find?
        (fun p => p.1 = name ++ ".Notebook") = none := by
      rw [List.find?_eq_none]
      intro p hpmem
      simp only [existingItemsMap, List.mem_map] at hpmem
      obtain ⟨it₀, hmem₀, hpe⟩ := hpmem
      simp only [decide_eq_true_eq]
      rw [← hpe]
      exact hnone it₀ hmem₀
    simp only [create_notebook_request, lookupItem, hfind]
    rfl

/-- C6 witness: a workspace holding notebook `NB` yields an update request for
`NB`, and an empty workspace yields a create request. -/
theorem c6_notebook_update_keyed_witness :
    (∃ it₀ : WsItem, it₀ ∈ [(⟨"id1", "NB", "Notebook", ""⟩ : WsItem)] ∧
      it₀.displayName ++ "." ++ it₀.type = "NB" ++ ".Notebook" ∧
      create_notebook_request
          (existingItemsMap [⟨"id1", "NB", "Notebook", ""⟩]) "NB"
        = .update it₀.id) ∧
    create_notebook_request (existingItemsMap []) "Other"
      = .create "Other" "Notebook" :=
  ⟨(c6_notebook_update_keyed [⟨"id1", "NB", "Notebook", ""⟩] "NB").1
      ⟨"id1", "NB", "Notebook", ""⟩ (by simp) rfl,
   (c6_notebook_update_keyed [] "Other").2
      (fun it hmem => absurd hmem (List.not_mem_nil it))⟩

/-! ## Asynchronous creation polling (claims C8)

`handle_async_creation` (workspace_item_utilities.py lines 641-671) reads the
poll target from the Location header, the wait hint from Retry-After
(defaulting to 30), sleeps the hint, queries the status, loops on non-terminal
status, calls `get_operation_result` exactly once on Succeeded, and raises on
Failed/Cancelled or a non-200 poll.  The sequence of poll responses the
service returns is passed explicitly; the run record collects the sleeps
performed and the number of result fetches. -/

/-- Python `c.lower()` for an ASCII character. -/
def lowerChar (c : Char) : Char :=
  if 65 ≤ c.toNat && c.toNat ≤ 90 then Char.ofNat (c.toNat + 32) else c

def isPySpace (c : Char) : Bool :=
  c = ' ' || c = '\t' || c = '\n' || c = '\r' || c = '\x0b' || c = '\x0c'

/-- Python `s.lower().strip()` as used on the polled operation status. -/
def pyLowerStrip (s : Text) : Text :=
  (((s.map lowerChar).dropWhile isPySpace).reverse.dropWhile isPySpace).reverse

structure AsyncResponse where
  location : Option String
  retryAfter : Option Nat
  operationId : String

inductive PollOutcome where
  | ok (status : Text)
  | httpError (code : Nat)

structure OpResult where
  id : String
  deriving DecidableEq, Repr

def SUCCEEDED : Text := ['s', 'u', 'c', 'c', 'e', 'e', 'd', 'e', 'd']
def FAILED : Text := ['f', 'a', 'i', 'l', 'e', 'd']
def CANCELLED : Text := ['c', 'a', 'n', 'c', 'e', 'l', 'l', 'e', 'd']

/-- One poll iteration trace: the sleeps performed, the number of calls to
`get_operation_result`, and the outcome. -/
def pollLoop (retryAfter : Nat) (opResult : OpResult) :
    List PollOutcome → Option (List Nat × Nat × Except String OpResult)
  | [] => none
  | p :: rest =>
    match p with
    | .httpError _ => some ([retryAfter], 0, .error "Unable to check operation status")
    | .ok status =>
      if pyLowerStrip status = SUCCEEDED then
        some ([retryAfter], 1, .ok opResult)
      else if pyLowerStrip status = FAILED ∨ pyLowerStrip status = CANCELLED then
        some ([retryAfter], 0, .error "creation failed")
      else
        match pollLoop retryAfter opResult rest with
        | none => none
        | some (sleeps, fetches, r) => some (retryAfter :: sleeps, fetches, r)

def handle_async_creation (resp : AsyncResponse) (polls : List PollOutcome)
    (opResult : OpResult) : Option (List Nat × Nat × Except String OpResult) :=
  match resp.location with
  | none => some ([], 0, .error "Location header is missing")
  | some _ => pollLoop (resp.retryAfter.getD 30) opResult polls

/-- The run-record append performed by the 202 branch of `create_notebook`
(lines 628-631): the guid returned by the final operation result is recorded. -/
structure GuidRecord where
  artifact_type : String
  artifact_name : String
  artifact_location_guid : String
  artifact_location_name : String
  artifact_guid : String
  deriving DecidableEq, Repr

def create_notebook_async_branch (guids : List GuidRecord)
    (workspace_id workspace_name notebook_name : String)
    (resp : AsyncResponse) (polls : List PollOutcome) (opResult : OpResult) :
    Option (List GuidRecord) :=
  match handle_async_creation resp polls opResult with
  | some (_, _, .ok r) =>
      some (guids ++ [⟨"Notebook", notebook_name, workspace_id, workspace_name, r.id⟩])
  | _ => none

/-- A poll response that keeps the loop going: HTTP 200 with a status that is
neither Succeeded nor Failed/Cancelled. -/
def nonTerminal : PollOutcome → Prop
  | .ok status => pyLowerStrip status ≠ SUCCEEDED ∧
      pyLowerStrip status ≠ FAILED ∧ pyLowerStrip status ≠ CANCELLED
  | .httpError _ => False

/-- Unfolding lemma: a non-terminal 200 response keeps the loop going. -/
theorem pollLoop_cons_nonterminal (ra : Nat) (opR : OpResult) (status : Text)
    (rest : List PollOutcome)
    (h1 : pyLowerStrip status ≠ SUCCEEDED)
    (h2 : pyLowerStrip status ≠ FAILED)
    (h3 : pyLowerStrip status ≠ CANCELLED) :
    pollLoop ra opR (.ok status :: rest)
      = match pollLoop ra opR rest with
        | none => none
        | some (sleeps, fetches, r) => some (ra :: sleeps, fetches, r) := by
  simp only [pollLoop, if_neg h1]
  rw [if_neg (by rintro (h | h); exact h2 h; exact h3 h)]

/-- C8: for an async (202) create, the poll loop sleeps the service wait hint
(Retry-After, defaulting to 30 when absent) before every status query, keeps
looping on non-terminal status, and on Succeeded performs exactly one fetch of
the final operation result, whose returned live identifier is appended to the
run's guids list. -/
theorem c8_async_poll_loop (loc : String) (retryAfter : Option Nat)
    (opId : String) (pre : List PollOutcome) (final : Text)
    (opResult : OpResult) (guids : List GuidRecord)
    (workspace_id workspace_name notebook_name : String)
    (hpre : ∀ p ∈ pre, nonTerminal p)
    (hfinal : pyLowerStrip final = SUCCEEDED) :
    handle_async_creation ⟨some loc, retryAfter, opId⟩ (pre ++ [.ok final]) opResult
      = some (List.replicate (pre.length + 1) (retryAfter.getD 30), 1, .ok opResult) ∧
    create_notebook_async_branch guids workspace_id workspace_name notebook_name
        ⟨some loc, retryAfter, opId⟩ (pre ++ [.ok final]) opResult
      = some (guids ++
          [⟨"Notebook", notebook_name, workspace_id, workspace_name,
            opResult.id⟩]) := by
  have hloop : ∀ pre : List PollOutcome, (∀ p ∈ pre, nonTerminal p) →
      pollLoop (retryAfter.getD 30) opResult (pre ++ [.ok final])
        = some (List.replicate (pre.length + 1) (retryAfter.getD 30), 1,
            .ok opResult) := by
    intro pre
    induction pre with
    | nil =>
      intro _
      simp only [List.nil_append, pollLoop]
      rw [if_pos hfinal]
      rfl
    | cons p rest ih =>
      intro hall
      have hp := hall p (by simp)
      cases p with
      | httpError c => exact absurd hp (by simp [nonTerminal])
      | ok status =>
        obtain ⟨h1, h2, h3⟩ := hp
        rw [List.cons_append,
          pollLoop_cons_nonterminal _ _ _ _ h1 h2 h3,
          ih (fun q hq => hall q (List.mem_cons_of_mem _ hq))]
        simp only [List.length_cons]
        rfl
  have h1 := hloop pre hpre
  constructor
  · simp only [handle_async_creation, h1]
  · simp only [create_notebook_async_branch, handle_async_creation, h1]

/-- C8 witness: the spec's example scenario — wait hint 30 absent from the
headers, one non-terminal poll then Succeeded (terminal after two polls),
one result fetch, live identifier recorded. -/
theorem c8_async_poll_loop_witness :
    handle_async_creation ⟨some "P", none, "op1"⟩
        [.ok ['R', 'u', 'n', 'n', 'i', 'n', 'g'],
         .ok ['S', 'u', 'c', 'c', 'e', 'e', 'd', 'e', 'd']] ⟨"guid-1"⟩
      = some ([30, 30], 1, .ok ⟨"guid-1"⟩) ∧
    create_notebook_async_branch [] "ws-id" "ws" "NB1"
        ⟨some "P", none, "op1"⟩
        [.ok ['R', 'u', 'n', 'n', 'i', 'n', 'g'],
         .ok ['S', 'u', 'c', 'c', 'e', 'e', 'd', 'e', 'd']] ⟨"guid-1"⟩
      = some [⟨"Notebook", "NB1", "ws-id", "ws", "guid-1"⟩] := by
  have h := c8_async_poll_loop "P" none "op1"
    [.ok ['R', 'u', 'n', 'n', 'i', 'n', 'g']]
    ['S', 'u', 'c', 'c', 'e', 'e', 'd', 'e', 'd']
    ⟨"guid-1"⟩ [] "ws-id" "ws" "NB1"
    (by intro p hp; simp at hp; subst hp; refine ⟨?_, ?_, ?_⟩ <;> decide)
    (by decide)
  exact h

/-! ## Orchestrator error containment (claim C9)

The existing-workspace branch of `orchestrator` (deployment_main.py lines
164-196): a failure of the delete-old-items phase is caught, recorded as
"Delete items error: ..." in `error_messages`, and the deploy phase still
runs; a deploy failure is appended as well; at the end, a non-empty error
list raises one message joining all entries with "; ", otherwise the run
returns normally. -/

def orchestrator_existing_workspace (deleteRes : Except String Unit)
    (deployRes : Except String Unit) :
    List String × Bool × Except String Unit :=
  -- error_messages after the inner try/except around delete_old_items
  let errs₁ : List String :=
    match deleteRes with
    | .error e => ["Delete items error: " ++ e]
    | .ok _ => []
  -- deploy_artifacts is attempted unconditionally afterwards (Bool = true);
  -- its failure is appended by the outer except
  let errs₂ : List String :=
    match deployRes with
    | .error e => errs₁ ++ [e]
    | .ok _ => errs₁
  (errs₂, true,
    if errs₂ = [] then .ok ()
    else .error (String.intercalate "; " errs₂))

/-- C9: a delete-phase failure is captured as a non-fatal error in the run's
error list, the deploy phase is still attempted, and the run raises a single
message joining every collected error; with no collected errors the run
reports success. -/
theorem c9_error_containment (deleteRes deployRes : Except String Unit) :
    (orchestrator_existing_workspace deleteRes deployRes).2.1 = true ∧
    (∀ e, deleteRes = .error e →
      "Delete items error: " ++ e ∈ (orchestrator_existing_workspace deleteRes deployRes).1) ∧
    ((orchestrator_existing_workspace deleteRes deployRes).2.2 = .ok ()
      ↔ (orchestrator_existing_workspace deleteRes deployRes).1 = []) ∧
    ((orchestrator_existing_workspace deleteRes deployRes).1 ≠ [] →
      (orchestrator_existing_workspace deleteRes deployRes).2.2
        = .error (String.intercalate "; "
            (orchestrator_existing_workspace deleteRes deployRes).1)) ∧
    ((orchestrator_existing_workspace deleteRes deployRes).1 = []
      ↔ deleteRes = .ok () ∧ deployRes = .ok ()) := by
  cases deleteRes with
  | ok u =>
    cases u
    cases deployRes with
    | ok v =>
      cases v
      refine ⟨rfl, ?_, by simp [orchestrator_existing_workspace], ?_, ?_⟩
      · intro e he; cases he
      · intro h; exact absurd rfl h
      · simp [orchestrator_existing_workspace]
    | error e =>
      refine ⟨rfl, ?_, ?_, ?_, ?_⟩
      · intro e' he; cases he
      · simp [orchestrator_existing_workspace]
      · intro _; simp [orchestrator_existing_workspace]
      · simp [orchestrator_existing_workspace]
  | error d =>
    cases deployRes with
    | ok v =>
      cases v
      refine ⟨rfl, ?_, ?_, ?_, ?_⟩
      · intro e he
        cases he
        simp [orchestrator_existing_workspace]
      · simp [orchestrator_existing_workspace]
      · intro _; simp [orchestrator_existing_workspace]
      · simp [orchestrator_existing_workspace]
    | error e =>
      refine ⟨rfl, ?_, ?_, ?_, ?_⟩
      · intro e' he
        cases he
        simp [orchestrator_existing_workspace]
      · simp [orchestrator_existing_workspace]
      · intro _; simp [orchestrator_existing_workspace]
      · simp [orchestrator_existing_workspace]

/-- C9 witness: when deletion fails with "boom" the prefixed message lands in
the collected error list while the run still reaches deployment. -/
theorem c9_error_containment_witness :
    "Delete items error: " ++ "boom"
      ∈ (orchestrator_existing_workspace (.error "boom") (.ok ())).1 :=
  (c9_error_containment (.error "boom") (.ok ())).2.1 "boom" rfl

/-! ## Dependency graph sort (`sort_datapipelines`, lines 1243-1329)

The input dictionary is modelled as a list of pipelines in insertion order,
each carrying the references discovered by `find_referenced_datapipelines`
(an I/O-performing scan abstracted here as data).  `graph` and `in_degree`
are ordered association lists mirroring `defaultdict` (missing keys appended
at the end on first write); the Kahn loop carries structural fuel that
provably suffices. -/

abbrev AList (α : Type) := List (String × α)

def keysOf {α : Type} (m : AList α) : List String := m.map (fun p => p.1)

def keyMem {α : Type} (m : AList α) (k : String) : Bool :=
  m.any (fun p => p.1 = k)

def getD {α : Type} : AList α → String → α → α
  | [], _, d => d
  | (k₀, v) :: m, k, d => if k₀ = k then v else getD m k d

/-- `m[k] = f(m[k] or dflt)` on a `defaultdict`: update in place if the key is
present, append at the end otherwise. -/
def upsert {α : Type} : AList α → String → (α → α) → α → AList α
  | [], k, f, d => [(k, f d)]
  | (k₀, v) :: m, k, f, d =>
    if k₀ = k then (k₀, f v) :: m else (k₀, v) :: upsert m k f d

structure Pipe where
  name : String
  refs : List String
  deriving DecidableEq, Repr

/-- The discovered edges, in scan order: `v` references `u` gives edge
`(u, v)` — `u` must be created before `v` (`graph[u].append(v)`,
`in_degree[v] += 1`, lines 1282-1284). -/
def edgesOf (pipes : List Pipe) : List (String × String) :=
  pipes.flatMap (fun p => p.refs.map (fun r => (r, p.name)))

/-- Lines 1282-1284: `graph[referenced_name].append(item_name)` and
`in_degree[item_name] += 1` for one reference. -/
def addRef (name : String) (gd : AList (List String) × AList Int)
    (r : String) : AList (List String) × AList Int :=
  (upsert gd.1 r (fun l => l ++ [name]) [],
   upsert gd.2 name (fun n => n + 1) 0)

/-- Lines 1282-1288: record the edges of one pipeline and ensure its
in-degree entry. -/
def processPipe (gd : AList (List String) × AList Int) (p : Pipe) :
    AList (List String) × AList Int :=
  let gd₁ := p.refs.foldl (addRef p.name) gd
  (gd₁.1, if keyMem gd₁.2 p.name then gd₁.2 else gd₁.2 ++ [(p.name, 0)])

def buildGraph (pipes : List Pipe) : AList (List String) × AList Int :=
  pipes.foldl processPipe ([], [])

/-- Line 1301: `if neighbor not in in_degree: in_degree[neighbor] += 1`
(on a defaultdict this sets a missing entry to 1). -/
def adjustNeighbor (d₂ : AList Int) (n : String) : AList Int :=
  if keyMem d₂ n then d₂ else upsert d₂ n (fun v => v + 1) 0

/-- Lines 1296-1301: one iteration of `for item_name in graph`. -/
def adjustEntry (d : AList Int) (kv : String × List String) : AList Int :=
  let d₁ := if keyMem d kv.1 then d else d ++ [(kv.1, (0 : Int))]
  kv.2.foldl adjustNeighbor d₁

/-- Lines 1294-1303 (Deployed mode only): every graph key missing from the
in-degree map is added with in-degree 0; a neighbor missing from the map
would get `in_degree[neighbor] += 1`. -/
def adjustDeployed (g : AList (List String)) (d₀ : AList Int) : AList Int :=
  g.foldl adjustEntry d₀

/-- Lines 1313-1316: pop `x`, decrement each neighbor, enqueue neighbors that
reach in-degree 0. -/
def decStep (dq : AList Int × List String) (n : String) :
    AList Int × List String :=
  let d := upsert dq.1 n (fun v => v - 1) 0
  if getD d n 0 = 0 then (d, dq.2 ++ [n]) else (d, dq.2)

/-- The Kahn loop (lines 1309-1316), with structural fuel. -/
def kahnLoop (g : AList (List String)) :
    Nat → AList Int → List String → List String → List String × AList Int
  | 0, d, _, s => (s, d)
  | _ + 1, d, [], s => (s, d)
  | fuel + 1, d, x :: rest, s =>
    let dq := (getD g x []).foldl decStep (d, [])
    kahnLoop g fuel dq.1 (rest ++ dq.2) (s ++ [x])

def sumPos (d : AList Int) : Nat := (d.map (fun p => p.2.toNat)).sum

def fuelFor (d : AList Int) (q : List String) : Nat := q.length + sumPos d

inductive LookupType where
  | repository
  | deployed
  deriving DecidableEq, Repr

def CYCLE_MSG : String :=
  "There is a cycle in the graph. Cannot determine a valid publish order."

def sort_datapipelines (pipes : List Pipe) (lookup_type : LookupType) :
    Except String (List String) :=
  let gd := buildGraph pipes
  let d := match lookup_type with
    | .deployed => adjustDeployed gd.1 gd.2
    | .repository => gd.2
  let q := (d.filter (fun p => p.2 = 0)).map (fun p => p.1)
  let r := kahnLoop gd.1 (fuelFor d q) d q []
  if r.1.length = r.2.length then
    match lookup_type with
    | .repository => .ok r.1
    | .deployed =>
        .ok ((r.1.filter
          (fun n => (pipes.map (fun p => p.name)).contains n)).reverse)
  else
    .error CYCLE_MSG

/-! ### Association list lemmas -/

theorem keysOf_cons {α : Type} (k : String) (v : α) (m : AList α) :
    keysOf ((k, v) :: m) = k :: keysOf m := rfl

theorem keyMem_iff {α : Type} (m : AList α) (k : String) :
    keyMem m k = true ↔ k ∈ keysOf m := by
  induction m with
  | nil => simp [keyMem, keysOf]
  | cons p m ih =>
    obtain ⟨k₀, v⟩ := p
    rw [keysOf_cons, List.mem_cons]
    simp only [keyMem, List.any_cons] at ih ⊢
    rw [Bool.or_eq_true, ih]
    constructor
    · rintro (h | h)
      · exact Or.inl (of_decide_eq_true h).symm
      · exact Or.inr h
    · rintro (h | h)
      · exact Or.inl (decide_eq_true h.symm)
      · exact Or.inr h

theorem getD_of_not_mem {α : Type} (m : AList α) (k : String) (d : α)
    (h : k ∉ keysOf m) : getD m k d = d := by
  induction m with
  | nil => rfl
  | cons p m ih =>
    obtain ⟨k₀, v⟩ := p
    rw [keysOf_cons, List.mem_cons] at h
    push_neg at h
    show (if k₀ = k then v else getD m k d) = d
    rw [if_neg (fun he => h.1 he.symm)]
    exact ih h.2

theorem getD_upsert_self {α : Type} (m : AList α) (k : String) (f : α → α)
    (d : α) : getD (upsert m k f d) k d = f (getD m k d) := by
  induction m with
  | nil =>
    show (if k = k then f d else d) = f d
    rw [if_pos rfl]
  | cons p m ih =>
    obtain ⟨k₀, v⟩ := p
    by_cases h : k₀ = k
    · simp only [upsert, if_pos h, getD, if_pos h]
    · simp only [upsert, if_neg h, getD, if_neg h]
      exact ih

theorem getD_upsert_ne {α : Type} (m : AList α) (k k' : String) (f : α → α)
    (d d' : α) (h : k ≠ k') : getD (upsert m k f d) k' d' = getD m k' d' := by
  induction m with
  | nil =>
    show (if k = k' then f d else d') = d'
    rw [if_neg h]
  | cons p m ih =>
    obtain ⟨k₀, v⟩ := p
    by_cases hp : k₀ = k
    · simp only [upsert, if_pos hp, getD]
      have hkk : ¬(k₀ = k') := fun he => h (hp.symm.trans he)
      rw [if_neg hkk, if_neg hkk]
    · simp only [upsert, if_neg hp, getD]
      by_cases hp' : k₀ = k'
      · rw [if_pos hp', if_pos hp']
      · rw [if_neg hp', if_neg hp']
        exact ih

theorem keysOf_upsert {α : Type} (m : AList α) (k : String) (f : α → α)
    (d : α) : keysOf (upsert m k f d) =
      if k ∈ keysOf m then keysOf m else keysOf m ++ [k] := by
  induction m with
  | nil =>
    show keysOf [(k, f d)] = if k ∈ ([] : List String) then _ else [] ++ [k]
    rw [if_neg (List.not_mem_nil k)]
    rfl
  | cons p m ih =>
    obtain ⟨k₀, v⟩ := p
    by_cases h : k₀ = k
    · simp only [upsert, if_pos h, keysOf_cons]
      rw [if_pos (by rw [List.mem_cons]; exact Or.inl h.symm)]
    · simp only [upsert, if_neg h, keysOf_cons, ih]
      by_cases hm : k ∈ keysOf m
      · rw [if_pos hm, if_pos (by rw [List.mem_cons]; exact Or.inr hm)]
      · rw [if_neg hm,
          if_neg (by
            rw [List.mem_cons]
            rintro (hc | hc)
            · exact h hc.symm
            · exact hm hc)]
        rfl

theorem keysOf_append {α : Type} (m m' : AList α) :
    keysOf (m ++ m') = keysOf m ++ keysOf m' := by
  simp [keysOf]

theorem getD_append_zero (m : AList Int) (k : String) (v : String) :
    getD (m ++ [(k, (0 : Int))]) v 0 = getD m v 0 := by
  induction m with
  | nil =>
    show (if k = v then (0 : Int) else 0) = 0
    split <;> rfl
  | cons p m ih =>
    obtain ⟨k₀, w⟩ := p
    show (if k₀ = v then w else getD (m ++ [(k, (0 : Int))]) v 0)
      = (if k₀ = v then w else getD m v 0)
    by_cases h : k₀ = v
    · rw [if_pos h, if_pos h]
    · rw [if_neg h, if_neg h, ih]

theorem nodup_keys_upsert {α : Type} (m : AList α) (k : String) (f : α → α)
    (d : α) (h : (keysOf m).Nodup) : (keysOf (upsert m k f d)).Nodup := by
  rw [keysOf_upsert]
  by_cases hm : k ∈ keysOf m
  · rw [if_pos hm]; exact h
  · rw [if_neg hm]
    simp [List.nodup_append, h, hm]

theorem mem_keysOf_iff {α : Type} (m : AList α) (k : String) :
    k ∈ keysOf m ↔ ∃ v, (k, v) ∈ m := by
  simp only [keysOf, List.mem_map]
  constructor
  · rintro ⟨⟨k', v⟩, hp, rfl⟩; exact ⟨v, hp⟩
  · rintro ⟨v, hv⟩; exact ⟨(k, v), hv, rfl⟩

theorem getD_of_mem {α : Type} (m : AList α) (k : String) (v : α) (d : α)
    (hnd : (keysOf m).Nodup) (hmem : (k, v) ∈ m) : getD m k d = v := by
  induction m with
  | nil => cases hmem
  | cons p m ih =>
    obtain ⟨k₀, w⟩ := p
    rw [keysOf_cons, List.nodup_cons] at hnd
    rcases List.mem_cons.mp hmem with h | h
    · injection h with h1 h2
      show (if k₀ = k then w else getD m k d) = v
      rw [if_pos h1.symm]
      exact h2.symm
    · have hk : k₀ ≠ k := by
        intro he
        exact hnd.1 (he ▸ (mem_keysOf_iff m k).mpr ⟨v, h⟩)
      show (if k₀ = k then w else getD m k d) = v
      rw [if_neg hk]
      exact ih hnd.2 h

theorem mem_of_getD {α : Type} (m : AList α) (k : String) (d : α)
    (h : k ∈ keysOf m) : (k, getD m k d) ∈ m := by
  induction m with
  | nil => cases h
  | cons p m ih =>
    obtain ⟨k₀, v⟩ := p
    rw [keysOf_cons, List.mem_cons] at h
    show (k, if k₀ = k then v else getD m k d) ∈ (k₀, v) :: m
    by_cases hp : k₀ = k
    · rw [if_pos hp]
      exact List.mem_cons.mpr (Or.inl (by rw [hp]))
    · rw [if_neg hp]
      rcases h with h | h
      · exact absurd h.symm hp
      · exact List.mem_cons.mpr (Or.inr (ih h))

/-! ### Edge counting -/

def countTo (edges : List (String × String)) (v : String) : Nat :=
  edges.countP (fun e => e.2 = v)

def popCount (edges : List (String × String)) (s : List String)
    (v : String) : Nat :=
  edges.countP (fun e => e.2 = v ∧ e.1 ∈ s)

def countX (edges : List (String × String)) (x v : String) : Nat :=
  edges.countP (fun e => e.2 = v ∧ e.1 = x)

def targetsOf (edges : List (String × String)) (u : String) : List String :=
  (edges.filter (fun e => e.1 = u)).map (fun e => e.2)

theorem popCount_nil (edges : List (String × String)) (v : String) :
    popCount edges [] v = 0 := by
  simp [popCount]

theorem popCount_le (edges : List (String × String)) (s : List String)
    (v : String) : popCount edges s v ≤ countTo edges v := by
  induction edges with
  | nil => simp [popCount, countTo]
  | cons e t ih =>
    simp only [popCount, countTo, List.countP_cons, decide_eq_true_eq] at *
    by_cases h1 : e.2 = v
    · by_cases h2 : e.1 ∈ s
      · rw [if_pos (by exact ⟨h1, h2⟩), if_pos h1]; omega
      · rw [if_neg (by rintro ⟨_, hc⟩; exact h2 hc), if_pos h1]; omega
    · rw [if_neg (by rintro ⟨hc, _⟩; exact h1 hc), if_neg h1]; omega

theorem popCount_append_singleton (edges : List (String × String))
    (s : List String) (x : String) (v : String) (hx : x ∉ s) :
    popCount edges (s ++ [x]) v = popCount edges s v + countX edges x v := by
  induction edges with
  | nil => simp [popCount, countX]
  | cons e t ih =>
    simp only [popCount, countX, List.countP_cons, decide_eq_true_eq] at *
    by_cases h1 : e.2 = v
    · by_cases h2 : e.1 ∈ s
      · have h4 : e.1 ≠ x := fun he => hx (he ▸ h2)
        rw [if_pos (by exact ⟨h1, by simp [h2]⟩), if_pos (by exact ⟨h1, h2⟩),
          if_neg (by rintro ⟨_, hc⟩; exact h4 hc)]
        omega
      · by_cases h4 : e.1 = x
        · rw [if_pos (by exact ⟨h1, by simp [h4]⟩),
            if_neg (by rintro ⟨_, hc⟩; exact h2 hc),
            if_pos (by exact ⟨h1, h4⟩)]
          omega
        · rw [if_neg (by
              rintro ⟨_, hc⟩
              rcases List.mem_append.mp hc with hc | hc
              · exact h2 hc
              · exact h4 (by simpa using hc)),
            if_neg (by rintro ⟨_, hc⟩; exact h2 hc),
            if_neg (by rintro ⟨_, hc⟩; exact h4 hc)]
          omega
    · rw [if_neg (by rintro ⟨hc, _⟩; exact h1 hc),
        if_neg (by rintro ⟨hc, _⟩; exact h1 hc),
        if_neg (by rintro ⟨hc, _⟩; exact h1 hc)]
      omega

theorem popCount_eq_countTo (edges : List (String × String)) (s : List String)
    (v : String) :
    popCount edges s v = countTo edges v ↔
      ∀ e ∈ edges, e.2 = v → e.1 ∈ s := by
  induction edges with
  | nil => simp [popCount, countTo]
  | cons e t ih =>
    have hle := popCount_le t s v
    simp only [popCount, countTo, List.countP_cons, decide_eq_true_eq] at *
    constructor
    · intro h e' he' hv'
      rcases List.mem_cons.mp he' with rfl | he'
      · by_contra hc
        rw [if_neg (by rintro ⟨_, h2⟩; exact hc h2), if_pos hv'] at h
        omega
      · refine (ih.mp ?_) e' he' hv'
        by_cases h1 : e.2 = v
        · by_cases h2 : e.1 ∈ s
          · rw [if_pos (by exact ⟨h1, h2⟩), if_pos h1] at h; omega
          · rw [if_neg (by rintro ⟨_, hc⟩; exact h2 hc), if_pos h1] at h; omega
        · rw [if_neg (by rintro ⟨hc, _⟩; exact h1 hc), if_neg h1] at h; omega
    · intro h
      have htail : popCount t s v = countTo t v :=
        ih.mpr (fun e' he' hv' => h e' (List.mem_cons_of_mem _ he') hv')
      simp only [popCount, countTo] at htail
      by_cases h1 : e.2 = v
      · have h2 : e.1 ∈ s := h e (List.mem_cons_self _ _) h1
        rw [if_pos (by exact ⟨h1, h2⟩), if_pos h1]
        omega
      · rw [if_neg (by rintro ⟨hc, _⟩; exact h1 hc), if_neg h1]
        omega

theorem popCount_lt_exists (edges : List (String × String)) (s : List String)
    (v : String) (h : popCount edges s v ≠ countTo edges v) :
    ∃ e ∈ edges, e.2 = v ∧ e.1 ∉ s := by
  by_contra hc
  push_neg at hc
  exact h ((popCount_eq_countTo edges s v).mpr hc)

theorem countX_pos_mem (edges : List (String × String)) (x v : String)
    (h : 1 ≤ countX edges x v) : (x, v) ∈ edges := by
  induction edges with
  | nil => simp [countX] at h
  | cons e t ih =>
    simp only [countX, List.countP_cons, decide_eq_true_eq] at h
    by_cases hc : e.2 = v ∧ e.1 = x
    · obtain ⟨h1, h2⟩ := hc
      obtain ⟨a, b⟩ := e
      simp only at h1 h2
      subst h1
      subst h2
      exact List.mem_cons_self _ _
    · rw [if_neg hc] at h
      exact List.mem_cons_of_mem _ (ih (by simpa [countX] using h))

theorem targetsOf_count (edges : List (String × String)) (x v : String) :
    (targetsOf edges x).count v = countX edges x v := by
  induction edges with
  | nil => simp [targetsOf, countX]
  | cons e t ih =>
    simp only [targetsOf, countX, List.filter_cons, List.countP_cons,
      decide_eq_true_eq] at *
    by_cases h1 : e.1 = x
    · rw [if_pos h1]
      simp only [List.map_cons, List.count_cons, beq_iff_eq]
      by_cases h2 : e.2 = v
      · rw [if_pos h2, if_pos (And.intro h2 h1), ih]
      · rw [if_neg h2, if_neg (fun hc => h2 hc.1), ih]
    · rw [if_neg h1, if_neg (fun hc => h1 hc.2), ih]
      omega

theorem mem_targetsOf (edges : List (String × String)) (x n : String) :
    n ∈ targetsOf edges x ↔ ∃ e ∈ edges, e.1 = x ∧ e.2 = n := by
  simp only [targetsOf, List.mem_map, List.mem_filter]
  constructor
  · rintro ⟨e, ⟨he, hx⟩, rfl⟩
    exact ⟨e, he, of_decide_eq_true hx, rfl⟩
  · rintro ⟨e, he, hx, rfl⟩
    exact ⟨e, ⟨he, decide_eq_true hx⟩, rfl⟩

theorem countTo_append (l₁ l₂ : List (String × String)) (v : String) :
    countTo (l₁ ++ l₂) v = countTo l₁ v + countTo l₂ v := by
  simp [countTo, List.countP_append]

theorem targetsOf_append (l₁ l₂ : List (String × String)) (u : String) :
    targetsOf (l₁ ++ l₂) u = targetsOf l₁ u ++ targetsOf l₂ u := by
  simp [targetsOf, List.filter_append]

/-! ### Build-stage lemmas -/

theorem edgesOf_cons (p : Pipe) (rest : List Pipe) :
    edgesOf (p :: rest)
      = (p.refs.map (fun r => (r, p.name))) ++ edgesOf rest := by
  simp [edgesOf]

theorem edgesOf_mem (pipes : List Pipe) (e : String × String) :
    e ∈ edgesOf pipes ↔ ∃ p ∈ pipes, e.2 = p.name ∧ e.1 ∈ p.refs := by
  simp only [edgesOf, List.mem_flatMap, List.mem_map]
  constructor
  · rintro ⟨p, hp, r, hr, rfl⟩
    exact ⟨p, hp, rfl, hr⟩
  · rintro ⟨p, hp, h2, h1⟩
    exact ⟨p, hp, e.1, h1, by rw [← h2]⟩

theorem edgesOf_target_mem (pipes : List Pipe) (e : String × String)
    (h : e ∈ edgesOf pipes) : e.2 ∈ pipes.map Pipe.name := by
  obtain ⟨p, hp, h2, _⟩ := (edgesOf_mem pipes e).mp h
  exact List.mem_map.mpr ⟨p, hp, h2.symm⟩

theorem countTo_pipeEdges (name : String) (refs : List String) (v : String) :
    countTo (refs.map (fun r => (r, name))) v
      = if v = name then refs.length else 0 := by
  induction refs with
  | nil => simp [countTo]
  | cons r rest ih =>
    simp only [List.map_cons, countTo, List.countP_cons, decide_eq_true_eq] at *
    by_cases h : v = name
    · simp [ih, h]
    · simp [ih, h, Ne.symm h]

theorem targetsOf_pipeEdges (name : String) (refs : List String) (u : String) :
    targetsOf (refs.map (fun r => (r, name))) u
      = (refs.filter (fun r => r = u)).map (fun _ => name) := by
  induction refs with
  | nil => simp [targetsOf]
  | cons r rest ih =>
    simp only [List.map_cons, targetsOf, List.filter_cons] at *
    by_cases h : r = u
    · rw [if_pos (decide_eq_true h), if_pos (decide_eq_true h)]
      simp only [List.map_cons]
      rw [← ih]
    · rw [if_neg (by simp [h]), if_neg (by simp [h])]
      exact ih

theorem addRefs_getD_g (name : String) (refs : List String) :
    ∀ (gd : AList (List String) × AList Int) (u : String),
      getD (refs.foldl (addRef name) gd).1 u []
        = getD gd.1 u [] ++ (refs.filter (fun r => r = u)).map (fun _ => name) := by
  induction refs with
  | nil => intro gd u; simp
  | cons r rest ih =>
    intro gd u
    simp only [List.foldl_cons, List.filter_cons]
    rw [ih]
    by_cases h : r = u
    · rw [if_pos (decide_eq_true h)]
      simp only [addRef, List.map_cons]
      subst h
      rw [getD_upsert_self]
      simp
    · rw [if_neg (by simp [h])]
      simp only [addRef]
      rw [getD_upsert_ne _ _ _ _ _ _ h]

theorem addRefs_getD_d (name : String) (refs : List String) :
    ∀ (gd : AList (List String) × AList Int) (v : String),
      getD (refs.foldl (addRef name) gd).2 v 0
        = getD gd.2 v 0 + (if v = name then (refs.length : Int) else 0) := by
  induction refs with
  | nil => intro gd v; simp
  | cons r rest ih =>
    intro gd v
    simp only [List.foldl_cons]
    rw [ih]
    simp only [addRef]
    by_cases h : v = name
    · subst h
      rw [getD_upsert_self, if_pos rfl, if_pos rfl]
      simp only [List.length_cons]
      push_cast
      ring
    · rw [getD_upsert_ne _ _ _ _ _ _ (fun he => h he.symm), if_neg h, if_neg h]

theorem addRefs_keys_g_mem (name : String) (refs : List String) :
    ∀ (gd : AList (List String) × AList Int) (k : String),
      k ∈ keysOf (refs.foldl (addRef name) gd).1
        ↔ k ∈ keysOf gd.1 ∨ k ∈ refs := by
  induction refs with
  | nil => intro gd k; simp
  | cons r rest ih =>
    intro gd k
    simp only [List.foldl_cons]
    rw [ih]
    simp only [addRef, keysOf_upsert]
    by_cases h : r ∈ keysOf gd.1
    · rw [if_pos h]
      constructor
      · rintro (hk | hk)
        · exact Or.inl hk
        · exact Or.inr (List.mem_cons_of_mem _ hk)
      · rintro (hk | hk)
        · exact Or.inl hk
        · rcases List.mem_cons.mp hk with rfl | hk
          · exact Or.inl h
          · exact Or.inr hk
    · rw [if_neg h]
      simp only [List.mem_append, List.mem_singleton, List.mem_cons]
      tauto

theorem addRefs_keys_d (name : String) (refs : List String) :
    ∀ (gd : AList (List String) × AList Int),
      keysOf (refs.foldl (addRef name) gd).2
        = if refs = [] then keysOf gd.2
          else if name ∈ keysOf gd.2 then keysOf gd.2
          else keysOf gd.2 ++ [name] := by
  induction refs with
  | nil => intro gd; simp
  | cons r rest ih =>
    intro gd
    simp only [List.foldl_cons]
    rw [ih]
    have hK : keysOf (addRef name gd r).2
        = if name ∈ keysOf gd.2 then keysOf gd.2 else keysOf gd.2 ++ [name] := by
      simp only [addRef]
      exact keysOf_upsert _ _ _ _
    rw [if_neg (List.cons_ne_nil r rest), hK]
    by_cases hr : rest = []
    · rw [if_pos hr]
    · rw [if_neg hr]
      by_cases h : name ∈ keysOf gd.2 <;> simp [h]

theorem addRefs_nodup_g (name : String) (refs : List String) :
    ∀ (gd : AList (List String) × AList Int),
      (keysOf gd.1).Nodup → (keysOf (refs.foldl (addRef name) gd).1).Nodup := by
  induction refs with
  | nil => intro gd h; exact h
  | cons r rest ih =>
    intro gd h
    simp only [List.foldl_cons]
    exact ih _ (nodup_keys_upsert _ _ _ _ h)

theorem addRefs_nodup_d (name : String) (refs : List String) :
    ∀ (gd : AList (List String) × AList Int),
      (keysOf gd.2).Nodup → (keysOf (refs.foldl (addRef name) gd).2).Nodup := by
  induction refs with
  | nil => intro gd h; exact h
  | cons r rest ih =>
    intro gd h
    simp only [List.foldl_cons]
    exact ih _ (nodup_keys_upsert _ _ _ _ h)

theorem processPipe_getD_g (gd : AList (List String) × AList Int) (p : Pipe)
    (u : String) :
    getD (processPipe gd p).1 u []
      = getD gd.1 u [] ++ targetsOf (p.refs.map (fun r => (r, p.name))) u := by
  simp only [processPipe]
  rw [addRefs_getD_g, targetsOf_pipeEdges]

theorem processPipe_getD_d (gd : AList (List String) × AList Int) (p : Pipe)
    (v : String) :
    getD (processPipe gd p).2 v 0
      = getD gd.2 v 0 + (countTo (p.refs.map (fun r => (r, p.name))) v : Int) := by
  simp only [processPipe]
  rw [countTo_pipeEdges]
  by_cases h : keyMem (p.refs.foldl (addRef p.name) gd).2 p.name
  · rw [if_pos h, addRefs_getD_d]
    by_cases hv : v = p.name
    · rw [if_pos hv, if_pos hv]
    · rw [if_neg hv, if_neg hv]
      simp
  · rw [if_neg h, getD_append_zero, addRefs_getD_d]
    by_cases hv : v = p.name
    · rw [if_pos hv, if_pos hv]
    · rw [if_neg hv, if_neg hv]
      simp

theorem processPipe_keys_d (gd : AList (List String) × AList Int) (p : Pipe) :
    keysOf (processPipe gd p).2
      = if p.name ∈ keysOf gd.2 then keysOf gd.2
        else keysOf gd.2 ++ [p.name] := by
  simp only [processPipe]
  have hfold := addRefs_keys_d p.name p.refs gd
  by_cases h : keyMem (p.refs.foldl (addRef p.name) gd).2 p.name = true
  · rw [if_pos h]
    rw [keyMem_iff, hfold] at h
    rw [hfold]
    by_cases hr : p.refs = []
    · rw [if_pos hr] at h ⊢
      rw [if_pos h]
    · rw [if_neg hr] at h ⊢
  · rw [if_neg h, keysOf_append, hfold]
    rw [keyMem_iff, hfold] at h
    by_cases hr : p.refs = []
    · rw [if_pos hr] at h ⊢
      rw [if_neg h]
      rfl
    · exfalso
      rw [if_neg hr] at h
      by_cases hn : p.name ∈ keysOf gd.2
      · rw [if_pos hn] at h; exact h hn
      · rw [if_neg hn] at h; exact h (by simp)

theorem processPipe_keys_g_mem (gd : AList (List String) × AList Int)
    (p : Pipe) (k : String) :
    k ∈ keysOf (processPipe gd p).1 ↔ k ∈ keysOf gd.1 ∨ k ∈ p.refs := by
  simp only [processPipe]
  exact addRefs_keys_g_mem _ _ _ _

theorem processPipe_nodup_g (gd : AList (List String) × AList Int) (p : Pipe)
    (h : (keysOf gd.1).Nodup) : (keysOf (processPipe gd p).1).Nodup := by
  simp only [processPipe]
  exact addRefs_nodup_g _ _ _ h

theorem buildGraph_getD_d (pipes : List Pipe) (v : String) :
    getD (buildGraph pipes).2 v 0 = (countTo (edgesOf pipes) v : Int) := by
  suffices h : ∀ gd : AList (List String) × AList Int,
      getD (pipes.foldl processPipe gd).2 v 0
        = getD gd.2 v 0 + (countTo (edgesOf pipes) v : Int) by
    have := h ([], [])
    simpa [buildGraph, getD] using this
  induction pipes with
  | nil => intro gd; simp [edgesOf, countTo]
  | cons p rest ih =>
    intro gd
    simp only [List.foldl_cons]
    rw [ih, processPipe_getD_d, edgesOf_cons, countTo_append]
    push_cast
    ring

theorem buildGraph_getD_g (pipes : List Pipe) (u : String) :
    getD (buildGraph pipes).1 u [] = targetsOf (edgesOf pipes) u := by
  suffices h : ∀ gd : AList (List String) × AList Int,
      getD (pipes.foldl processPipe gd).1 u []
        = getD gd.1 u [] ++ targetsOf (edgesOf pipes) u by
    have := h ([], [])
    simpa [buildGraph, getD] using this
  induction pipes with
  | nil => intro gd; simp [edgesOf, targetsOf]
  | cons p rest ih =>
    intro gd
    simp only [List.foldl_cons]
    rw [ih, processPipe_getD_g, edgesOf_cons, targetsOf_append,
      List.append_assoc]

theorem foldl_processPipe_keys_d (pipes : List Pipe) :
    ∀ gd : AList (List String) × AList Int,
      (∀ p ∈ pipes, p.name ∉ keysOf gd.2) → (pipes.map Pipe.name).Nodup →
      keysOf (pipes.foldl processPipe gd).2
        = keysOf gd.2 ++ pipes.map Pipe.name := by
  induction pipes with
  | nil => intro gd _ _; simp
  | cons p rest ih =>
    intro gd hdisj hnd
    simp only [List.map_cons, List.nodup_cons] at hnd
    simp only [List.foldl_cons]
    rw [ih _ ?_ hnd.2, processPipe_keys_d,
      if_neg (hdisj p (List.mem_cons_self _ _))]
    · simp
    · intro q hq
      rw [processPipe_keys_d, if_neg (hdisj p (List.mem_cons_self _ _))]
      intro hc
      rcases List.mem_append.mp hc with hc | hc
      · exact hdisj q (List.mem_cons_of_mem _ hq) hc
      · have : q.name = p.name := by simpa using hc
        exact hnd.1 (this ▸ List.mem_map.mpr ⟨q, hq, rfl⟩)

theorem buildGraph_keys_d (pipes : List Pipe)
    (h : (pipes.map Pipe.name).Nodup) :
    keysOf (buildGraph pipes).2 = pipes.map Pipe.name := by
  have := foldl_processPipe_keys_d pipes ([], []) (by simp [keysOf]) h
  simpa [buildGraph, keysOf] using this

theorem buildGraph_keys_g_mem (pipes : List Pipe) (k : String) :
    k ∈ keysOf (buildGraph pipes).1 ↔ ∃ e ∈ edgesOf pipes, e.1 = k := by
  suffices h : ∀ gd : AList (List String) × AList Int,
      k ∈ keysOf (pipes.foldl processPipe gd).1
        ↔ k ∈ keysOf gd.1 ∨ ∃ p ∈ pipes, k ∈ p.refs by
    rw [buildGraph]
    rw [h ([], [])]
    simp only [keysOf, List.map_nil, List.not_mem_nil, false_or]
    constructor
    · rintro ⟨p, hp, hk⟩
      exact ⟨(k, p.name), (edgesOf_mem _ _).mpr ⟨p, hp, rfl, hk⟩, rfl⟩
    · rintro ⟨e, he, rfl⟩
      obtain ⟨p, hp, _, h1⟩ := (edgesOf_mem _ _).mp he
      exact ⟨p, hp, h1⟩
  induction pipes with
  | nil => intro gd; simp
  | cons p rest ih =>
    intro gd
    simp only [List.foldl_cons]
    rw [ih, processPipe_keys_g_mem]
    constructor
    · rintro ((hk | hk) | ⟨q, hq, hk⟩)
      · exact Or.inl hk
      · exact Or.inr ⟨p, List.mem_cons_self _ _, hk⟩
      · exact Or.inr ⟨q, List.mem_cons_of_mem _ hq, hk⟩
    · rintro (hk | ⟨q, hq, hk⟩)
      · exact Or.inl (Or.inl hk)
      · rcases List.mem_cons.mp hq with rfl | hq
        · exact Or.inl (Or.inr hk)
        · exact Or.inr ⟨q, hq, hk⟩

theorem buildGraph_nodup_g (pipes : List Pipe) :
    (keysOf (buildGraph pipes).1).Nodup := by
  suffices h : ∀ gd : AList (List String) × AList Int,
      (keysOf gd.1).Nodup → (keysOf (pipes.foldl processPipe gd).1).Nodup by
    exact h ([], []) (by simp [keysOf])
  induction pipes with
  | nil => intro gd h; exact h
  | cons p rest ih =>
    intro gd h
    simp only [List.foldl_cons]
    exact ih _ (processPipe_nodup_g _ _ h)

/-! ### Adjust-stage lemmas (Deployed mode) -/

theorem foldl_adjustNeighbor_of_mem (ns : List String) :
    ∀ d : AList Int, (∀ n ∈ ns, n ∈ keysOf d) →
      ns.foldl adjustNeighbor d = d := by
  induction ns with
  | nil => intro d _; rfl
  | cons n rest ih =>
    intro d h
    simp only [List.foldl_cons, adjustNeighbor,
      if_pos ((keyMem_iff d n).mpr (h n (List.mem_cons_self _ _)))]
    exact ih d (fun m hm => h m (List.mem_cons_of_mem _ hm))

theorem adjustEntry_eq (d : AList Int) (kv : String × List String)
    (h : ∀ n ∈ kv.2, n ∈ keysOf d) :
    adjustEntry d kv
      = if keyMem d kv.1 then d else d ++ [(kv.1, (0 : Int))] := by
  simp only [adjustEntry]
  by_cases hk : keyMem d kv.1 = true
  · rw [if_pos hk]
    exact foldl_adjustNeighbor_of_mem _ d h
  · rw [if_neg hk]
    refine foldl_adjustNeighbor_of_mem _ _ ?_
    intro n hn
    rw [keysOf_append]
    exact List.mem_append_left _ (h n hn)

theorem getD_append_zeros (d ex : AList Int) (v : String)
    (hex : ∀ p ∈ ex, p.2 = 0) : getD (d ++ ex) v 0 = getD d v 0 := by
  induction d with
  | nil =>
    simp only [List.nil_append]
    induction ex with
    | nil => rfl
    | cons p rest ih =>
      obtain ⟨k, w⟩ := p
      have hw : w = 0 := hex (k, w) (List.mem_cons_self _ _)
      show (if k = v then w else getD rest v 0) = 0
      rw [hw]
      by_cases h : k = v
      · rw [if_pos h]
      · rw [if_neg h]
        exact ih (fun p hp => hex p (List.mem_cons_of_mem _ hp))
  | cons p d ih =>
    obtain ⟨k, w⟩ := p
    show (if k = v then w else getD (d ++ ex) v 0)
      = (if k = v then w else getD d v 0)
    by_cases h : k = v
    · rw [if_pos h, if_pos h]
    · rw [if_neg h, if_neg h, ih]

theorem adjust_fold_struct (g : List (String × List String)) :
    ∀ d : AList Int, (∀ kv ∈ g, ∀ n ∈ kv.2, n ∈ keysOf d) →
      ∃ ex : AList Int, g.foldl adjustEntry d = d ++ ex ∧
        (∀ p ∈ ex, p.2 = 0 ∧ p.1 ∉ keysOf d ∧ p.1 ∈ keysOf g) ∧
        (keysOf ex).Nodup ∧
        (∀ k ∈ keysOf g, k ∈ keysOf (d ++ ex)) := by
  induction g with
  | nil =>
    intro d _
    exact ⟨[], by simp, by simp, by simp [keysOf], by simp [keysOf]⟩
  | cons kv rest ih =>
    intro d h
    simp only [List.foldl_cons]
    rw [adjustEntry_eq d kv (h kv (List.mem_cons_self _ _))]
    by_cases hk : keyMem d kv.1 = true
    · rw [if_pos hk]
      obtain ⟨ex, he, hprop, hnd, hcov⟩ := ih d
        (fun kv' hkv' => h kv' (List.mem_cons_of_mem _ hkv'))
      refine ⟨ex, he, ?_, hnd, ?_⟩
      · intro p hp
        obtain ⟨h1, h2, h3⟩ := hprop p hp
        exact ⟨h1, h2, by rw [keysOf_cons]; exact List.mem_cons_of_mem _ h3⟩
      · intro k hkmem
        rw [keysOf_cons] at hkmem
        rcases List.mem_cons.mp hkmem with rfl | hkmem
        · rw [keysOf_append]
          exact List.mem_append_left _ ((keyMem_iff d kv.1).mp hk)
        · exact hcov k hkmem
    · rw [if_neg hk]
      obtain ⟨ex, he, hprop, hnd, hcov⟩ := ih (d ++ [(kv.1, (0 : Int))])
        (fun kv' hkv' n hn => by
          rw [keysOf_append]
          exact List.mem_append_left _
            (h kv' (List.mem_cons_of_mem _ hkv') n hn))
      refine ⟨(kv.1, (0 : Int)) :: ex, by rw [he, List.append_assoc]; rfl,
        ?_, ?_, ?_⟩
      · intro p hp
        rcases List.mem_cons.mp hp with rfl | hp
        · refine ⟨rfl, ?_, by rw [keysOf_cons]; exact List.mem_cons_self _ _⟩
          intro hc
          exact hk ((keyMem_iff d kv.1).mpr hc)
        · obtain ⟨h1, h2, h3⟩ := hprop p hp
          refine ⟨h1, ?_, by rw [keysOf_cons]; exact List.mem_cons_of_mem _ h3⟩
          intro hc
          exact h2 (by rw [keysOf_append]; exact List.mem_append_left _ hc)
      · rw [keysOf_cons, List.nodup_cons]
        refine ⟨?_, hnd⟩
        intro hc
        obtain ⟨w, hw⟩ := (mem_keysOf_iff ex kv.1).mp hc
        obtain ⟨_, h2, _⟩ := hprop (kv.1, w) hw
        exact h2 (by
          rw [keysOf_append]
          exact List.mem_append_right _ (by simp [keysOf]))
      · intro k hkmem
        rw [keysOf_cons] at hkmem
        have hsplit : keysOf (d ++ (kv.1, (0 : Int)) :: ex)
            = keysOf ((d ++ [(kv.1, (0 : Int))]) ++ ex) := by
          rw [List.append_assoc]
          rfl
        rcases List.mem_cons.mp hkmem with rfl | hkmem
        · rw [hsplit, keysOf_append, keysOf_append]
          exact List.mem_append_left _
            (List.mem_append_right _ (by simp [keysOf]))
        · rw [hsplit]
          exact hcov k hkmem

theorem adjustDeployed_struct (g : AList (List String)) (d₀ : AList Int)
    (h : ∀ kv ∈ g, ∀ n ∈ kv.2, n ∈ keysOf d₀) :
    ∃ ex : AList Int, adjustDeployed g d₀ = d₀ ++ ex ∧
      (∀ p ∈ ex, p.2 = 0 ∧ p.1 ∉ keysOf d₀ ∧ p.1 ∈ keysOf g) ∧
      (keysOf ex).Nodup ∧
      (∀ k ∈ keysOf g, k ∈ keysOf (d₀ ++ ex)) :=
  adjust_fold_struct g d₀ h

/-! ### Per-pop fold lemmas (`decStep`) -/

theorem decFold_getD (nbrs : List String) :
    ∀ (d : AList Int) (nq : List String) (v : String),
      getD (nbrs.foldl decStep (d, nq)).1 v 0
        = getD d v 0 - (nbrs.count v : Int) := by
  induction nbrs with
  | nil => intro d nq v; simp
  | cons n rest ih =>
    intro d nq v
    simp only [List.foldl_cons, decStep]
    by_cases hz : getD (upsert d n (fun w => w - 1) 0) n 0 = 0
    · rw [if_pos hz]
      rw [ih]
      by_cases hv : n = v
      · subst hv
        rw [getD_upsert_self]
        rw [List.count_cons_self]
        push_cast
        ring
      · rw [getD_upsert_ne _ _ _ _ _ _ hv,
          List.count_cons_of_ne (fun he => hv he.symm)]
    · rw [if_neg hz]
      rw [ih]
      by_cases hv : n = v
      · subst hv
        rw [getD_upsert_self]
        rw [List.count_cons_self]
        push_cast
        ring
      · rw [getD_upsert_ne _ _ _ _ _ _ hv,
          List.count_cons_of_ne (fun he => hv he.symm)]

theorem decFold_keys (nbrs : List String) :
    ∀ (d : AList Int) (nq : List String),
      (∀ n ∈ nbrs, n ∈ keysOf d) →
      keysOf (nbrs.foldl decStep (d, nq)).1 = keysOf d := by
  induction nbrs with
  | nil => intro d nq _; rfl
  | cons n rest ih =>
    intro d nq h
    have hkeys : keysOf (upsert d n (fun w => w - 1) 0) = keysOf d := by
      rw [keysOf_upsert, if_pos (h n (List.mem_cons_self _ _))]
    simp only [List.foldl_cons, decStep]
    by_cases hz : getD (upsert d n (fun w => w - 1) 0) n 0 = 0
    · rw [if_pos hz, ih _ _ (fun m hm => by
        rw [hkeys]; exact h m (List.mem_cons_of_mem _ hm)), hkeys]
    · rw [if_neg hz, ih _ _ (fun m hm => by
        rw [hkeys]; exact h m (List.mem_cons_of_mem _ hm)), hkeys]

theorem decFold_nodup_keys (nbrs : List String) :
    ∀ (d : AList Int) (nq : List String),
      (keysOf d).Nodup → (keysOf (nbrs.foldl decStep (d, nq)).1).Nodup := by
  induction nbrs with
  | nil => intro d nq h; exact h
  | cons n rest ih =>
    intro d nq h
    simp only [List.foldl_cons, decStep]
    by_cases hz : getD (upsert d n (fun w => w - 1) 0) n 0 = 0
    · rw [if_pos hz]
      exact ih _ _ (nodup_keys_upsert _ _ _ _ h)
    · rw [if_neg hz]
      exact ih _ _ (nodup_keys_upsert _ _ _ _ h)

theorem decFold_queue (nbrs : List String) :
    ∀ (d : AList Int) (nq : List String),
      nq.Nodup → (∀ v ∈ nq, getD d v 0 ≤ 0) →
      ((nbrs.foldl decStep (d, nq)).2.Nodup ∧
       (∀ v ∈ (nbrs.foldl decStep (d, nq)).2,
          getD (nbrs.foldl decStep (d, nq)).1 v 0 ≤ 0) ∧
       (∀ v, v ∈ (nbrs.foldl decStep (d, nq)).2 ↔
          v ∈ nq ∨ (1 ≤ getD d v 0 ∧ getD d v 0 ≤ (nbrs.count v : Int)))) := by
  induction nbrs with
  | nil =>
    intro d nq hnd hle
    refine ⟨hnd, hle, ?_⟩
    intro v
    constructor
    · exact Or.inl
    · rintro (hv | ⟨h1, h2⟩)
      · exact hv
      · exfalso
        rw [List.count_nil] at h2
        push_cast at h2
        omega
  | cons n rest ih =>
    intro d nq hnd hle
    have hself : getD (upsert d n (fun w => w - 1) 0) n 0 = getD d n 0 - 1 :=
      getD_upsert_self d n (fun w => w - 1) 0
    simp only [List.foldl_cons, decStep]
    by_cases hz : getD (upsert d n (fun w => w - 1) 0) n 0 = 0
    · rw [if_pos hz]
      have hdn : getD d n 0 = 1 := by omega
      have hnnq : n ∉ nq := by
        intro hc
        have := hle n hc
        omega
      obtain ⟨ih1, ih2, ih3⟩ := ih (upsert d n (fun w => w - 1) 0) (nq ++ [n])
        (by simp [List.nodup_append, hnd, hnnq])
        (by
          intro v hv
          rcases List.mem_append.mp hv with hv | hv
          · by_cases hvn : n = v
            · subst hvn; omega
            · rw [getD_upsert_ne _ _ _ _ _ _ hvn]
              exact hle v hv
          · have : v = n := by simpa using hv
            subst this
            omega)
      refine ⟨ih1, ih2, ?_⟩
      intro v
      rw [ih3]
      by_cases hvn : n = v
      · subst hvn
        rw [List.count_cons_self]
        constructor
        · intro _
          refine Or.inr ⟨by omega, ?_⟩
          push_cast
          omega
        · intro _
          exact Or.inl (List.mem_append_right _ (List.mem_cons_self _ _))
      · rw [getD_upsert_ne _ _ _ _ _ _ hvn,
          List.count_cons_of_ne (fun he => hvn he.symm)]
        constructor
        · rintro (hv | hv)
          · rcases List.mem_append.mp hv with hv | hv
            · exact Or.inl hv
            · exact absurd (by simpa using hv : v = n)
                (fun he => hvn he.symm)
          · exact Or.inr hv
        · rintro (hv | hv)
          · exact Or.inl (List.mem_append_left _ hv)
          · exact Or.inr hv
    · rw [if_neg hz]
      have hdn : getD d n 0 ≠ 1 := by omega
      obtain ⟨ih1, ih2, ih3⟩ := ih (upsert d n (fun w => w - 1) 0) nq hnd
        (by
          intro v hv
          by_cases hvn : n = v
          · subst hvn
            have := hle n hv
            omega
          · rw [getD_upsert_ne _ _ _ _ _ _ hvn]
            exact hle v hv)
      refine ⟨ih1, ih2, ?_⟩
      intro v
      rw [ih3]
      by_cases hvn : n = v
      · subst hvn
        rw [hself, List.count_cons_self]
        constructor
        · rintro (hv | hv)
          · exact Or.inl hv
          · right
            push_cast at hv ⊢
            omega
        · rintro (hv | hv)
          · exact Or.inl hv
          · right
            push_cast at hv ⊢
            omega
      · rw [getD_upsert_ne _ _ _ _ _ _ hvn,
          List.count_cons_of_ne (fun he => hvn he.symm)]

theorem sumPos_upsert (d : AList Int) (k : String) (f : Int → Int)
    (h : (keysOf d).Nodup) :
    sumPos (upsert d k f 0) + (getD d k 0).toNat
      = sumPos d + (f (getD d k 0)).toNat := by
  induction d with
  | nil =>
    show sumPos [(k, f 0)] + (0 : Int).toNat = 0 + (f 0).toNat
    simp [sumPos]
  | cons p d ih =>
    obtain ⟨k₀, v⟩ := p
    rw [keysOf_cons, List.nodup_cons] at h
    by_cases hk : k₀ = k
    · simp only [upsert, if_pos hk]
      show sumPos ((k₀, f v) :: d) + (if k₀ = k then v else getD d k 0).toNat
        = sumPos ((k₀, v) :: d) + (f (if k₀ = k then v else getD d k 0)).toNat
      rw [if_pos hk]
      simp only [sumPos, List.map_cons, List.sum_cons]
      omega
    · simp only [upsert, if_neg hk]
      show sumPos ((k₀, v) :: upsert d k f 0)
          + (if k₀ = k then v else getD d k 0).toNat
        = sumPos ((k₀, v) :: d) + (f (if k₀ = k then v else getD d k 0)).toNat
      rw [if_neg hk]
      simp only [sumPos, List.map_cons, List.sum_cons]
      have := ih h.2
      simp only [sumPos] at this
      omega

theorem decFold_sumPos (nbrs : List String) :
    ∀ (d : AList Int) (nq : List String),
      (keysOf d).Nodup →
      sumPos (nbrs.foldl decStep (d, nq)).1
          + (nbrs.foldl decStep (d, nq)).2.length
        ≤ sumPos d + nq.length := by
  induction nbrs with
  | nil => intro d nq _; simp
  | cons n rest ih =>
    intro d nq h
    have hsum : sumPos (upsert d n (fun w => w - 1) 0) + (getD d n 0).toNat
        = sumPos d + (getD d n 0 - 1).toNat :=
      sumPos_upsert d n (fun w => w - 1) h
    have hnodup : (keysOf (upsert d n (fun w => w - 1) 0)).Nodup :=
      nodup_keys_upsert _ _ _ _ h
    have hself : getD (upsert d n (fun w => w - 1) 0) n 0 = getD d n 0 - 1 :=
      getD_upsert_self d n (fun w => w - 1) 0
    simp only [List.foldl_cons, decStep]
    by_cases hz : getD (upsert d n (fun w => w - 1) 0) n 0 = 0
    · rw [if_pos hz]
      have := ih (upsert d n (fun w => w - 1) 0) (nq ++ [n]) hnodup
      have hlen : (nq ++ [n]).length = nq.length + 1 := by simp
      rw [hlen] at this
      have hdn : getD d n 0 = 1 := by omega
      rw [hdn] at hsum
      simp only [Int.toNat_one] at hsum
      have : ((1 : Int) - 1).toNat = 0 := by decide
      omega
    · rw [if_neg hz]
      have := ih (upsert d n (fun w => w - 1) 0) nq hnodup
      have hmono : ((getD d n 0) - 1).toNat ≤ (getD d n 0).toNat := by
        omega
      omega

/-! ### The Kahn loop invariant -/

theorem countTo_pos_of_mem (edges : List (String × String))
    (u v : String) (h : (u, v) ∈ edges) : 0 < countTo edges v := by
  rw [countTo, List.countP_pos_iff]
  exact ⟨(u, v), h, by simp⟩

structure KahnInv (edges : List (String × String)) (K : List String)
    (d : AList Int) (q s : List String) : Prop where
  keys_eq : keysOf d = K
  nodup_sq : (s ++ q).Nodup
  mem_keys : ∀ n ∈ s ++ q, n ∈ K
  deg : ∀ v, getD d v 0 = (countTo edges v : Int) - (popCount edges s v : Int)
  queue_zero : ∀ v ∈ q, getD d v 0 = 0
  queue_complete : ∀ v ∈ K, v ∉ s → getD d v 0 = 0 → v ∈ q
  topo : ∀ u v, (u, v) ∈ edges → v ∈ s → [u, v].Sublist s
  topo_q : ∀ u v, (u, v) ∈ edges → v ∈ q → u ∈ s

theorem kahnStep (edges : List (String × String)) (K : List String)
    (g : AList (List String))
    (hg : ∀ u, getD g u [] = targetsOf edges u)
    (hKnd : K.Nodup) (htgt : ∀ e ∈ edges, e.2 ∈ K)
    (d : AList Int) (x : String) (rest s : List String)
    (hinv : KahnInv edges K d (x :: rest) s) :
    KahnInv edges K ((getD g x []).foldl decStep (d, [])).1
      (rest ++ ((getD g x []).foldl decStep (d, [])).2) (s ++ [x]) ∧
    fuelFor ((getD g x []).foldl decStep (d, [])).1
        (rest ++ ((getD g x []).foldl decStep (d, [])).2) + 1
      ≤ fuelFor d (x :: rest) := by
  set nbrs := getD g x [] with hnbrs
  set R := nbrs.foldl decStep (d, []) with hR
  have hx_notin_s : x ∉ s := by
    have h := List.nodup_append.mp hinv.nodup_sq
    intro hc
    exact h.2.2 hc (List.mem_cons_self _ _)
  have hdx0 : getD d x 0 = 0 := hinv.queue_zero x (List.mem_cons_self _ _)
  have hallx : ∀ e ∈ edges, e.2 = x → e.1 ∈ s := by
    refine (popCount_eq_countTo edges s x).mp ?_
    have := hinv.deg x
    rw [hdx0] at this
    omega
  have hcount : ∀ v, (nbrs.count v : Int) = (countX edges x v : Int) := by
    intro v
    rw [hnbrs, hg x, targetsOf_count]
  have hnbrs_keys : ∀ n ∈ nbrs, n ∈ keysOf d := by
    intro n hn
    rw [hnbrs, hg x] at hn
    obtain ⟨e, he, _, h2⟩ := (mem_targetsOf edges x n).mp hn
    rw [hinv.keys_eq]
    exact h2 ▸ htgt e he
  have hd' : ∀ v, getD R.1 v 0 = getD d v 0 - (countX edges x v : Int) := by
    intro v
    rw [hR, decFold_getD, hcount]
  have hkeys' : keysOf R.1 = K := by
    rw [hR, decFold_keys _ _ _ hnbrs_keys, hinv.keys_eq]
  obtain ⟨hnqnd, hnqle, hnqmem⟩ :=
    decFold_queue nbrs d [] (List.nodup_nil) (by intro v hv; cases hv)
  rw [← hR] at hnqnd hnqle hnqmem
  have hnqmem' : ∀ v, v ∈ R.2 ↔
      (1 ≤ getD d v 0 ∧ getD d v 0 ≤ (nbrs.count v : Int)) := by
    intro v
    rw [hnqmem v]
    simp
  have deg' : ∀ v, getD R.1 v 0
      = (countTo edges v : Int) - (popCount edges (s ++ [x]) v : Int) := by
    intro v
    rw [hd', hinv.deg, popCount_append_singleton edges s x v hx_notin_s]
    push_cast
    ring
  have hd'_nonneg : ∀ v, 0 ≤ getD R.1 v 0 := by
    intro v
    rw [deg']
    have := popCount_le edges (s ++ [x]) v
    omega
  have hnq_zero : ∀ v ∈ R.2, getD R.1 v 0 = 0 := by
    intro v hv
    have h1 := hnqle v hv
    have h2 := hd'_nonneg v
    omega
  have hnq_in_K : ∀ v ∈ R.2, v ∈ K := by
    intro v hv
    obtain ⟨h1, h2⟩ := (hnqmem' v).mp hv
    rw [hcount] at h2
    have hcx : 1 ≤ countX edges x v := by omega
    exact htgt (x, v) (countX_pos_mem edges x v hcx)
  have hnq_not_s : ∀ v ∈ R.2, v ∉ s := by
    intro v hv hvs
    obtain ⟨h1, _⟩ := (hnqmem' v).mp hv
    have hpc : popCount edges s v = countTo edges v := by
      refine (popCount_eq_countTo edges s v).mpr ?_
      intro e he hv2
      have := hinv.topo e.1 e.2 (by
        have : e = (e.1, e.2) := rfl
        rw [← this]; exact he) (hv2 ▸ hvs)
      exact this.subset (List.mem_cons_self _ _)
    have := hinv.deg v
    rw [hpc] at this
    omega
  have hnq_not_xrest : ∀ v ∈ R.2, v ∉ x :: rest := by
    intro v hv hc
    obtain ⟨h1, _⟩ := (hnqmem' v).mp hv
    rcases List.mem_cons.mp hc with rfl | hc
    · omega
    · have := hinv.queue_zero v (List.mem_cons_of_mem _ hc)
      omega
  have hassoc : (s ++ [x]) ++ (rest ++ R.2) = (s ++ x :: rest) ++ R.2 := by
    simp
  constructor
  · refine ⟨hkeys', ?_, ?_, deg', ?_, ?_, ?_, ?_⟩
    · -- nodup
      rw [hassoc]
      refine List.Nodup.append hinv.nodup_sq hnqnd ?_
      intro a ha hanq
      rcases List.mem_append.mp ha with ha | ha
      · exact hnq_not_s a hanq ha
      · exact hnq_not_xrest a hanq ha
    · -- mem_keys
      intro n hn
      rw [hassoc] at hn
      rcases List.mem_append.mp hn with hn | hn
      · exact hinv.mem_keys n (by
          rcases List.mem_append.mp hn with hn | hn
          · exact List.mem_append_left _ hn
          · exact List.mem_append_right _ hn)
      · exact hnq_in_K n hn
    · -- queue_zero
      intro v hv
      rcases List.mem_append.mp hv with hv | hv
      · have hz := hinv.queue_zero v (List.mem_cons_of_mem _ hv)
        have hcx : countX edges x v = 0 := by
          by_contra hc
          have h1 : 1 ≤ countX edges x v := by omega
          have hmem := countX_pos_mem edges x v h1
          have := hinv.topo_q x v hmem (List.mem_cons_of_mem _ hv)
          exact hx_notin_s this
        rw [hd', hz, hcx]
        simp
      · exact hnq_zero v hv
    · -- queue_complete
      intro v hvK hvs hz
      have hveq : getD d v 0 = (countX edges x v : Int) := by
        have := hd' v
        omega
      by_cases hcx : countX edges x v = 0
      · have hdv : getD d v 0 = 0 := by rw [hveq, hcx]; simp
        have hvq := hinv.queue_complete v hvK
          (fun hc => hvs (List.mem_append_left _ hc)) hdv
        rcases List.mem_cons.mp hvq with rfl | hvq
        · exact absurd (List.mem_append_right _ (List.mem_cons_self _ _)) hvs
        · exact List.mem_append_left _ hvq
      · refine List.mem_append_right _ ((hnqmem' v).mpr ⟨?_, ?_⟩)
        · omega
        · rw [hcount]
          omega
    · -- topo
      intro u v he hv
      rcases List.mem_append.mp hv with hv | hv
      · exact (hinv.topo u v he hv).trans (List.sublist_append_left s [x])
      · have hvx : v = x := by simpa using hv
        subst hvx
        have hu : u ∈ s := hallx (u, v) he rfl
        have h1 : List.Sublist [u] s := List.singleton_sublist.mpr hu
        exact h1.append (List.Sublist.refl [v])
    · -- topo_q
      intro u v he hv
      rcases List.mem_append.mp hv with hv | hv
      · exact List.mem_append_left _
          (hinv.topo_q u v he (List.mem_cons_of_mem _ hv))
      · have hz := hnq_zero v hv
        rw [deg'] at hz
        have hpc : popCount edges (s ++ [x]) v = countTo edges v := by omega
        exact (popCount_eq_countTo edges (s ++ [x]) v).mp hpc (u, v) he rfl
  · -- fuel
    have hsum := decFold_sumPos nbrs d [] (hinv.keys_eq ▸ hKnd)
    rw [← hR] at hsum
    simp only [List.length_nil] at hsum
    simp only [fuelFor, List.length_append, List.length_cons]
    omega

theorem kahnLoop_invariant (edges : List (String × String)) (K : List String)
    (g : AList (List String))
    (hg : ∀ u, getD g u [] = targetsOf edges u)
    (hKnd : K.Nodup) (htgt : ∀ e ∈ edges, e.2 ∈ K) :
    ∀ (fuel : Nat) (d : AList Int) (q s : List String),
      KahnInv edges K d q s → fuelFor d q ≤ fuel →
      KahnInv edges K (kahnLoop g fuel d q s).2 [] (kahnLoop g fuel d q s).1 := by
  intro fuel
  induction fuel with
  | zero =>
    intro d q s hinv hfuel
    have hq : q = [] := by
      refine List.eq_nil_of_length_eq_zero ?_
      simp only [fuelFor] at hfuel
      omega
    subst hq
    exact hinv
  | succ fuel ih =>
    intro d q s hinv hfuel
    cases q with
    | nil => exact hinv
    | cons x rest =>
      obtain ⟨hinv', hfuel'⟩ := kahnStep edges K g hg hKnd htgt d x rest s hinv
      show KahnInv edges K (kahnLoop g (fuel + 1) d (x :: rest) s).2 []
        (kahnLoop g (fuel + 1) d (x :: rest) s).1
      have hunfold : kahnLoop g (fuel + 1) d (x :: rest) s
          = kahnLoop g fuel ((getD g x []).foldl decStep (d, [])).1
              (rest ++ ((getD g x []).foldl decStep (d, [])).2) (s ++ [x]) := by
        rfl
      rw [hunfold]
      exact ih _ _ _ hinv' (by omega)

/-! ### Post-loop reasoning -/

def idxIn : List String → String → Nat
  | [], _ => 0
  | b :: t, a => if b = a then 0 else idxIn t a + 1

theorem idxIn_lt_length (l : List String) (a : String) (h : a ∈ l) :
    idxIn l a < l.length := by
  induction l with
  | nil => cases h
  | cons b t ih =>
    simp only [idxIn, List.length_cons]
    by_cases hb : b = a
    · rw [if_pos hb]; omega
    · rw [if_neg hb]
      have : a ∈ t := by
        rcases List.mem_cons.mp h with hc | hc
        · exact absurd hc.symm hb
        · exact hc
      have := ih this
      omega

theorem idx_lt_of_sublist_pair (l : List String) (u v : String)
    (hnd : l.Nodup) (h : List.Sublist [u, v] l) :
    idxIn l u < idxIn l v := by
  induction l with
  | nil => cases h
  | cons b t ih =>
    rw [List.nodup_cons] at hnd
    cases h with
    | cons _ h' =>
      -- [u, v] <+ t
      have hu : u ∈ t := h'.subset (List.mem_cons_self _ _)
      have hv : v ∈ t := h'.subset (List.mem_cons_of_mem _ (List.mem_cons_self _ _))
      have hbu : b ≠ u := fun he => hnd.1 (he ▸ hu)
      have hbv : b ≠ v := fun he => hnd.1 (he ▸ hv)
      simp only [idxIn, if_neg hbu, if_neg hbv]
      have := ih hnd.2 h'
      omega
    | cons₂ _ h' =>
      -- u = b, [v] <+ t
      have hv : v ∈ t := h'.subset (List.mem_cons_self _ _)
      have hbv : u ≠ v := fun he => hnd.1 (he ▸ hv)
      show (if u = u then 0 else idxIn t u + 1)
        < (if u = v then 0 else idxIn t v + 1)
      rw [if_pos rfl, if_neg hbv]
      omega

/-- A non-empty set of nodes closed under a successor relation along edges
cannot all be listed in a topologically sorted output: indices would ascend
without bound. -/
theorem no_closed_ascent (edges : List (String × String)) (sF : List String)
    (hnd : sF.Nodup)
    (htopo : ∀ u v, (u, v) ∈ edges → v ∈ sF → List.Sublist [u, v] sF)
    (next : String → String) (S : List String)
    (hclosed : ∀ v ∈ S, next v ∈ S ∧ (v, next v) ∈ edges)
    (hsub : ∀ v ∈ S, v ∈ sF) : S = [] := by
  by_contra hne
  obtain ⟨v₀, hv₀⟩ := List.exists_mem_of_ne_nil S hne
  have aux : ∀ n, ∀ v ∈ S, sF.length ≤ n + idxIn sF v → False := by
    intro n
    induction n with
    | zero =>
      intro v hv hlen
      have := idxIn_lt_length sF v (hsub v hv)
      omega
    | succ m ih =>
      intro v hv hlen
      obtain ⟨hnext, hedge⟩ := hclosed v hv
      have hns := hsub _ hnext
      have hlt := idx_lt_of_sublist_pair sF v (next v) hnd
        (htopo _ _ hedge hns)
      exact ih (next v) hnext (by omega)
  exact aux sF.length v₀ hv₀ (by omega)

/-- Under a rank function witnessing acyclicity, the loop emits every key:
otherwise the unemitted node of minimal rank would have an unemitted in-edge
source of smaller rank, descending forever. -/
theorem kahn_complete (edges : List (String × String)) (K : List String)
    (dF : AList Int) (sF : List String) (rank : String → Nat)
    (hrank : ∀ e ∈ edges, rank e.1 < rank e.2)
    (hsrc : ∀ e ∈ edges, e.1 ∈ K)
    (hfin : KahnInv edges K dF [] sF) :
    ∀ v ∈ K, v ∈ sF := by
  have aux : ∀ n, ∀ v, rank v < n → v ∈ K → v ∈ sF := by
    intro n
    induction n with
    | zero => intro v h; omega
    | succ m ih =>
      intro v hrv hvK
      by_contra hvs
      have hne : getD dF v 0 ≠ 0 := by
        intro h0
        exact (List.not_mem_nil v) (hfin.queue_complete v hvK hvs h0)
      have hdeq := hfin.deg v
      have hple := popCount_le edges sF v
      have hlt : popCount edges sF v ≠ countTo edges v := by
        intro he
        apply hne
        rw [hdeq, he]
        omega
      obtain ⟨e, he, hv2, hu⟩ := popCount_lt_exists edges sF v hlt
      have hrk := hrank e he
      rw [hv2] at hrk
      exact hu (ih e.1 (by omega) (hsrc e he))
  intro v hv
  exact aux (rank v + 1) v (by omega) hv

theorem perm_of_nodup_sub_sub {l₁ l₂ : List String} (h₁ : l₁.Nodup)
    (h₂ : l₂.Nodup) (s₁ : l₁ ⊆ l₂) (s₂ : l₂ ⊆ l₁) : l₁.Perm l₂ :=
  (h₁.subperm s₁).antisymm (h₂.subperm s₂)

theorem perm_of_subperm_length_le {l₁ l₂ : List String} (h : l₁.Subperm l₂)
    (hl : l₂.length ≤ l₁.length) : l₁.Perm l₂ := by
  obtain ⟨l, hp, hs⟩ := h
  have hlen : l₂.length ≤ l.length := by
    rw [hp.length_eq]
    exact hl
  have : l = l₂ := hs.eq_of_length_le hlen
  exact (this ▸ hp).symm

/-! ### Queue initialization -/

theorem kahnInit (edges : List (String × String)) (d₀ : AList Int)
    (hnd : (keysOf d₀).Nodup)
    (hdeg : ∀ v, getD d₀ v 0 = (countTo edges v : Int)) :
    KahnInv edges (keysOf d₀) d₀
      ((d₀.filter (fun p => p.2 = 0)).map (fun p => p.1)) [] := by
  have hqsub : List.Sublist
      ((d₀.filter (fun p => p.2 = 0)).map (fun p => p.1)) (keysOf d₀) :=
    (List.filter_sublist d₀).map (fun p => p.1)
  have hqzero : ∀ v ∈ (d₀.filter (fun p => p.2 = 0)).map (fun p => p.1),
      getD d₀ v 0 = 0 := by
    intro v hv
    obtain ⟨p, hp, hv1⟩ := List.mem_map.mp hv
    have hf := List.mem_filter.mp hp
    have hp2 : p.2 = 0 := of_decide_eq_true hf.2
    have : p = (v, (0 : Int)) := by
      obtain ⟨a, b⟩ := p
      simp only at hv1 hp2
      rw [hv1, hp2]
    rw [this] at hf
    exact getD_of_mem d₀ v 0 0 hnd hf.1
  refine ⟨rfl, ?_, ?_, ?_, hqzero, ?_, ?_, ?_⟩
  · simp only [List.nil_append]
    exact hqsub.nodup hnd
  · intro n hn
    simp only [List.nil_append] at hn
    exact hqsub.subset hn
  · intro v
    rw [hdeg v, popCount_nil]
    simp
  · intro v hvK _ hz
    have hmem : (v, getD d₀ v 0) ∈ d₀ := mem_of_getD d₀ v 0 hvK
    rw [hz] at hmem
    refine List.mem_map.mpr ⟨(v, 0), ?_, rfl⟩
    refine List.mem_filter.mpr ⟨hmem, by simp⟩
  · intro u v _ hv
    cases hv
  · intro u v he hv
    exfalso
    have h0 := hqzero v hv
    rw [hdeg v] at h0
    have := countTo_pos_of_mem edges u v he
    omega

/-! ### Claim C1 -/

/-- C1: for an input dictionary with distinct pipeline names whose discovered
reference graph is acyclic (witnessed by a rank function increasing along
every must-precede edge) and whose referenced names all resolve to pipelines
of the dictionary, `sort_datapipelines` in Repository (ForCreation) mode
succeeds, returns every pipeline name exactly once (a permutation of the
input's names), and places `u` strictly before `v` for every dependency edge
`u → v` (artifact `v`'s definition references `u`). -/
theorem c1_sort_forCreation (pipes : List Pipe) (rank : String → Nat)
    (hnd : (pipes.map Pipe.name).Nodup)
    (hresolve : ∀ p ∈ pipes, ∀ r ∈ p.refs, r ∈ pipes.map Pipe.name)
    (hrank : ∀ e ∈ edgesOf pipes, rank e.1 < rank e.2) :
    ∃ order, sort_datapipelines pipes .repository = .ok order ∧
      order.Perm (pipes.map Pipe.name) ∧
      ∀ u v, (u, v) ∈ edgesOf pipes → List.Sublist [u, v] order := by
  set edges := edgesOf pipes with hedges
  set g := (buildGraph pipes).1 with hgdef
  set d₀ := (buildGraph pipes).2 with hd₀
  set q₀ := (d₀.filter (fun p => p.2 = 0)).map (fun p => p.1) with hq₀
  have hkeys : keysOf d₀ = pipes.map Pipe.name := buildGraph_keys_d pipes hnd
  have hdnd : (keysOf d₀).Nodup := by rw [hkeys]; exact hnd
  have hdeg : ∀ v, getD d₀ v 0 = (countTo edges v : Int) :=
    buildGraph_getD_d pipes
  have hinit := kahnInit edges d₀ hdnd hdeg
  have hg : ∀ u, getD g u [] = targetsOf edges u := buildGraph_getD_g pipes
  have htgt : ∀ e ∈ edges, e.2 ∈ keysOf d₀ := by
    intro e he
    rw [hkeys]
    exact edgesOf_target_mem pipes e he
  have hfin := kahnLoop_invariant edges (keysOf d₀) g hg hdnd htgt
    (fuelFor d₀ q₀) d₀ q₀ [] hinit (Nat.le_refl _)
  set r := kahnLoop g (fuelFor d₀ q₀) d₀ q₀ [] with hr
  have hsrc : ∀ e ∈ edges, e.1 ∈ keysOf d₀ := by
    intro e he
    rw [hkeys]
    obtain ⟨p, hp, _, h1⟩ := (edgesOf_mem pipes e).mp he
    exact hresolve p hp e.1 h1
  have hcomp := kahn_complete edges (keysOf d₀) r.2 r.1 rank hrank hsrc hfin
  have hsub : r.1 ⊆ keysOf d₀ := by
    intro n hn
    exact hfin.mem_keys n (by simpa using hn)
  have hnd1 : r.1.Nodup := by
    have := hfin.nodup_sq
    simpa using this
  have hperm : r.1.Perm (keysOf d₀) :=
    perm_of_nodup_sub_sub hnd1 hdnd hsub (fun v hv => hcomp v hv)
  have hlen : r.1.length = r.2.length := by
    have h1 : r.1.length = (keysOf d₀).length := hperm.length_eq
    have h2 : keysOf r.2 = keysOf d₀ := hfin.keys_eq
    have h3 : (keysOf r.2).length = r.2.length := by simp [keysOf]
    rw [h1, ← h2, h3]
  refine ⟨r.1, ?_, by rw [← hkeys]; exact hperm, ?_⟩
  · show sort_datapipelines pipes .repository = .ok r.1
    simp only [sort_datapipelines]
    rw [if_pos hlen]
  · intro u v he
    have hvK : v ∈ keysOf d₀ := htgt (u, v) he
    exact hfin.topo u v he (hcomp v hvK)

/-- Setup facts for Deployed (ForDeletion) mode: the adjusted in-degree map
keys are the pipeline names followed by the referenced names from outside the
dictionary, its entries still count incoming edges, and every edge source has
a key. -/
theorem deployed_d_spec (pipes : List Pipe)
    (hnd : (pipes.map Pipe.name).Nodup) :
    ∃ exK : List String,
      keysOf (adjustDeployed (buildGraph pipes).1 (buildGraph pipes).2)
        = pipes.map Pipe.name ++ exK ∧
      (∀ x ∈ exK, x ∉ pipes.map Pipe.name) ∧
      (keysOf (adjustDeployed (buildGraph pipes).1 (buildGraph pipes).2)).Nodup ∧
      (∀ v, getD (adjustDeployed (buildGraph pipes).1 (buildGraph pipes).2) v 0
        = (countTo (edgesOf pipes) v : Int)) ∧
      (∀ e ∈ edgesOf pipes, e.1
        ∈ keysOf (adjustDeployed (buildGraph pipes).1 (buildGraph pipes).2)) := by
  set g := (buildGraph pipes).1 with hgdef
  set d₀ := (buildGraph pipes).2 with hd₀
  have hkeys : keysOf d₀ = pipes.map Pipe.name := buildGraph_keys_d pipes hnd
  have hgnd : (keysOf g).Nodup := buildGraph_nodup_g pipes
  have hnb : ∀ kv ∈ g, ∀ n ∈ kv.2, n ∈ keysOf d₀ := by
    intro kv hkv n hn
    have hkmem : kv.1 ∈ keysOf g := List.mem_map.mpr ⟨kv, hkv, rfl⟩
    have hval : getD g kv.1 [] = kv.2 := by
      obtain ⟨a, b⟩ := kv
      exact getD_of_mem g a b [] hgnd hkv
    rw [← hval, buildGraph_getD_g pipes kv.1] at hn
    obtain ⟨e, he, _, h2⟩ := (mem_targetsOf (edgesOf pipes) kv.1 n).mp hn
    rw [hkeys]
    exact h2 ▸ edgesOf_target_mem pipes e he
  obtain ⟨ex, he, hprop, hexnd, hcov⟩ := adjustDeployed_struct g d₀ hnb
  refine ⟨keysOf ex, ?_, ?_, ?_, ?_, ?_⟩
  · rw [he, keysOf_append, hkeys]
  · intro x hx
    obtain ⟨w, hw⟩ := (mem_keysOf_iff ex x).mp hx
    obtain ⟨_, h2, _⟩ := hprop (x, w) hw
    rw [← hkeys]
    exact h2
  · rw [he, keysOf_append]
    refine List.Nodup.append (hkeys ▸ hnd) hexnd ?_
    intro a ha hax
    obtain ⟨w, hw⟩ := (mem_keysOf_iff ex a).mp hax
    obtain ⟨_, h2, _⟩ := hprop (a, w) hw
    exact h2 ha
  · intro v
    rw [he, getD_append_zeros d₀ ex v (fun p hp => (hprop p hp).1)]
    exact buildGraph_getD_d pipes v
  · intro e hemem
    rw [he]
    exact hcov e.1 ((buildGraph_keys_g_mem pipes e.1).mpr ⟨e, hemem, rfl⟩)

/-! ### Claim C2 -/

/-- C2: if the discovered reference graph contains a cycle — a non-empty set
of nodes closed under a successor map that always steps along an edge — then
`sort_datapipelines` raises the cycle error in both Repository (ForCreation)
and Deployed (ForDeletion) mode, returning no order at all. -/
theorem c2_sort_cycle_error (pipes : List Pipe) (lt : LookupType)
    (hnd : (pipes.map Pipe.name).Nodup)
    (hcycle : ∃ (next : String → String) (S : List String), S ≠ [] ∧
      ∀ v ∈ S, next v ∈ S ∧ (v, next v) ∈ edgesOf pipes) :
    sort_datapipelines pipes lt = .error CYCLE_MSG := by
  obtain ⟨next, S, hSne, hclosed⟩ := hcycle
  set edges := edgesOf pipes with hedges
  set g := (buildGraph pipes).1 with hgdef
  -- the in-degree map handed to the Kahn loop, by mode
  set d₁ := (match lt with
    | LookupType.deployed => adjustDeployed (buildGraph pipes).1 (buildGraph pipes).2
    | LookupType.repository => (buildGraph pipes).2) with hd₁
  have hsetup : (keysOf d₁).Nodup ∧
      (∀ v, getD d₁ v 0 = (countTo edges v : Int)) ∧
      (∀ n, n ∈ pipes.map Pipe.name → n ∈ keysOf d₁) := by
    cases lt with
    | repository =>
      have hkeys : keysOf d₁ = pipes.map Pipe.name := buildGraph_keys_d pipes hnd
      exact ⟨hkeys ▸ hnd, buildGraph_getD_d pipes, fun n hn => hkeys ▸ hn⟩
    | deployed =>
      obtain ⟨exK, hk, _, hknd, hdeg, _⟩ := deployed_d_spec pipes hnd
      refine ⟨by rw [hd₁]; exact hknd, by rw [hd₁]; exact hdeg, ?_⟩
      intro n hn
      rw [hd₁, hk]
      exact List.mem_append_left _ hn
  obtain ⟨hdnd, hdeg, hnames⟩ := hsetup
  have htgt : ∀ e ∈ edges, e.2 ∈ keysOf d₁ := by
    intro e he
    exact hnames e.2 (edgesOf_target_mem pipes e he)
  have hg : ∀ u, getD g u [] = targetsOf edges u := buildGraph_getD_g pipes
  set q₀ := (d₁.filter (fun p => p.2 = 0)).map (fun p => p.1) with hq₀
  have hinit := kahnInit edges d₁ hdnd hdeg
  have hfin := kahnLoop_invariant edges (keysOf d₁) g hg hdnd htgt
    (fuelFor d₁ q₀) d₁ q₀ [] hinit (Nat.le_refl _)
  set r := kahnLoop g (fuelFor d₁ q₀) d₁ q₀ [] with hr
  have hsub : r.1 ⊆ keysOf d₁ := by
    intro n hn
    exact hfin.mem_keys n (by simpa using hn)
  have hnd1 : r.1.Nodup := by
    have := hfin.nodup_sq
    simpa using this
  have hlen : r.1.length ≠ r.2.length := by
    intro hlen
    have hKlen : (keysOf d₁).length = r.2.length := by
      rw [← hfin.keys_eq]
      simp [keysOf]
    have hperm : r.1.Perm (keysOf d₁) :=
      perm_of_subperm_length_le (hnd1.subperm hsub) (by omega)
    -- every name is therefore emitted; walk the cycle upward in the output
    have hS2 : S.map next = [] := by
      refine no_closed_ascent edges r.1 hnd1 hfin.topo next (S.map next)
        ?_ ?_
      · intro v hv
        obtain ⟨u, hu, rfl⟩ := List.mem_map.mp hv
        have hvS : next u ∈ S := (hclosed u hu).1
        exact ⟨List.mem_map.mpr ⟨next u, hvS, rfl⟩, (hclosed _ hvS).2⟩
      · intro v hv
        obtain ⟨u, hu, rfl⟩ := List.mem_map.mp hv
        have hedge := (hclosed u hu).2
        have : next u ∈ keysOf d₁ :=
          hnames (next u) (edgesOf_target_mem pipes (u, next u) hedge)
        exact hperm.symm.subset this
    rcases S with _ | ⟨s₀, S'⟩
    · exact hSne rfl
    · cases hS2
  show sort_datapipelines pipes lt = .error CYCLE_MSG
  simp only [sort_datapipelines]
  cases lt with
  | repository =>
    rw [← hd₁, ← hq₀, ← hr, if_neg hlen]
  | deployed =>
    rw [← hd₁, ← hq₀, ← hr, if_neg hlen]

/-- C2 witness: the cycle `A → B → A` makes the sort fail in both modes. -/
theorem c2_sort_cycle_error_witness :
    sort_datapipelines [⟨"A", ["B"]⟩, ⟨"B", ["A"]⟩] .repository
        = .error CYCLE_MSG ∧
    sort_datapipelines [⟨"A", ["B"]⟩, ⟨"B", ["A"]⟩] .deployed
        = .error CYCLE_MSG := by
  have hcyc : ∃ (next : String → String) (S : List String), S ≠ [] ∧
      ∀ v ∈ S, next v ∈ S ∧
        (v, next v) ∈ edgesOf [⟨"A", ["B"]⟩, ⟨"B", ["A"]⟩] := by
    refine ⟨fun v => if v = "A" then "B" else "A", ["A", "B"], by simp, ?_⟩
    decide
  exact ⟨c2_sort_cycle_error _ .repository (by decide) hcyc,
    c2_sort_cycle_error _ .deployed (by decide) hcyc⟩

/-! ### Claim C3 -/

theorem contains_iff (l : List String) (a : String) :
    (l.contains a) = true ↔ a ∈ l := by
  induction l with
  | nil => simp
  | cons b t ih =>
    simp only [List.contains_cons, Bool.or_eq_true, beq_iff_eq, List.mem_cons]
    rw [ih]

/-- C3: for an acyclic input with distinct pipeline names,
`sort_datapipelines` in Deployed (ForDeletion) mode succeeds and returns
exactly the members of the deletion candidate set (the dictionary's keys),
each exactly once, with `v` strictly before `u` for every dependency edge
`u → v` whose endpoints both lie in the candidate set — the restriction of
the forward creation order to the candidate set, reversed. -/
theorem c3_sort_forDeletion (pipes : List Pipe) (rank : String → Nat)
    (hnd : (pipes.map Pipe.name).Nodup)
    (hrank : ∀ e ∈ edgesOf pipes, rank e.1 < rank e.2) :
    ∃ order, sort_datapipelines pipes .deployed = .ok order ∧
      order.Perm (pipes.map Pipe.name) ∧
      ∀ u v, (u, v) ∈ edgesOf pipes → u ∈ pipes.map Pipe.name →
        v ∈ pipes.map Pipe.name → List.Sublist [v, u] order := by
  set edges := edgesOf pipes with hedges
  set g := (buildGraph pipes).1 with hgdef
  set d₁ := adjustDeployed (buildGraph pipes).1 (buildGraph pipes).2 with hd₁
  obtain ⟨exK, hk, hexnames, hdnd, hdeg, hsrck⟩ := deployed_d_spec pipes hnd
  rw [← hd₁] at hk hdnd hdeg hsrck
  have hnames : ∀ n ∈ pipes.map Pipe.name, n ∈ keysOf d₁ := by
    intro n hn
    rw [hk]
    exact List.mem_append_left _ hn
  have htgt : ∀ e ∈ edges, e.2 ∈ keysOf d₁ := by
    intro e he
    exact hnames e.2 (edgesOf_target_mem pipes e he)
  have hg : ∀ u, getD g u [] = targetsOf edges u := buildGraph_getD_g pipes
  set q₀ := (d₁.filter (fun p => p.2 = 0)).map (fun p => p.1) with hq₀
  have hinit := kahnInit edges d₁ hdnd hdeg
  have hfin := kahnLoop_invariant edges (keysOf d₁) g hg hdnd htgt
    (fuelFor d₁ q₀) d₁ q₀ [] hinit (Nat.le_refl _)
  set r := kahnLoop g (fuelFor d₁ q₀) d₁ q₀ [] with hr
  have hcomp := kahn_complete edges (keysOf d₁) r.2 r.1 rank hrank hsrck hfin
  have hsub : r.1 ⊆ keysOf d₁ := by
    intro n hn
    exact hfin.mem_keys n (by simpa using hn)
  have hnd1 : r.1.Nodup := by
    have := hfin.nodup_sq
    simpa using this
  have hperm : r.1.Perm (keysOf d₁) :=
    perm_of_nodup_sub_sub hnd1 hdnd hsub (fun v hv => hcomp v hv)
  have hlen : r.1.length = r.2.length := by
    have h1 : r.1.length = (keysOf d₁).length := hperm.length_eq
    have h2 : (keysOf r.2).length = r.2.length := by simp [keysOf]
    rw [h1, ← hfin.keys_eq, h2]
  set p := fun n => (pipes.map (fun p => p.name)).contains n with hp
  have hpmem : ∀ n, p n = true ↔ n ∈ pipes.map Pipe.name := by
    intro n
    rw [hp]
    exact contains_iff _ n
  have hfilterK : (keysOf d₁).filter p = pipes.map Pipe.name := by
    rw [hk, List.filter_append]
    have h1 : (pipes.map Pipe.name).filter p = pipes.map Pipe.name := by
      rw [List.filter_eq_self]
      intro a ha
      exact (hpmem a).mpr ha
    have h2 : exK.filter p = [] := by
      rw [List.filter_eq_nil_iff]
      intro a ha hc
      exact hexnames a ha ((hpmem a).mp hc)
    rw [h1, h2, List.append_nil]
  have hfperm : (r.1.filter p).Perm (pipes.map Pipe.name) := by
    have := hperm.filter p
    rw [hfilterK] at this
    exact this
  refine ⟨(r.1.filter p).reverse, ?_, ?_, ?_⟩
  · show sort_datapipelines pipes .deployed
      = .ok ((r.1.filter p).reverse)
    simp only [sort_datapipelines]
    rw [← hd₁, ← hq₀, ← hr, if_pos hlen]
  · exact (List.reverse_perm _).trans hfperm
  · intro u v he hu hv
    have hvs : v ∈ r.1 := hcomp v (hnames v hv)
    have hsubl : List.Sublist [u, v] r.1 := hfin.topo u v he hvs
    have hfil : List.Sublist ([u, v].filter p) (r.1.filter p) :=
      hsubl.filter p
    have huv : [u, v].filter p = [u, v] := by
      rw [List.filter_eq_self]
      intro a ha
      rcases List.mem_cons.mp ha with rfl | ha
      · exact (hpmem a).mpr hu
      · have : a = v := by simpa using ha
        subst this
        exact (hpmem a).mpr hv
    rw [huv] at hfil
    have hrev := hfil.reverse
    simpa using hrev

/-- C3 witness: deleting both `PipelineA` (references `PipelineB`) and
`PipelineB` removes `PipelineA` first. -/
theorem c3_sort_forDeletion_witness :
    ∃ order, sort_datapipelines
        [⟨"PipelineA", ["PipelineB"]⟩, ⟨"PipelineB", []⟩] .deployed
        = .ok order ∧
      order.Perm (List.map Pipe.name
        [⟨"PipelineA", ["PipelineB"]⟩, ⟨"PipelineB", []⟩]) ∧
      ∀ u v, (u, v) ∈ edgesOf [⟨"PipelineA", ["PipelineB"]⟩, ⟨"PipelineB", []⟩]
        → u ∈ List.map Pipe.name
            [⟨"PipelineA", ["PipelineB"]⟩, ⟨"PipelineB", []⟩]
        → v ∈ List.map Pipe.name
            [⟨"PipelineA", ["PipelineB"]⟩, ⟨"PipelineB", []⟩]
        → List.Sublist [v, u] order :=
  c3_sort_forDeletion
    [⟨"PipelineA", ["PipelineB"]⟩, ⟨"PipelineB", []⟩]
    (fun s => if s = "PipelineB" then 0 else 1)
    (by decide) (by decide)

/-- C1 witness: the spec's example — `PipelineA` references `PipelineB`, so
creation order is `[PipelineB, PipelineA]`. -/
theorem c1_sort_forCreation_witness :
    ∃ order, sort_datapipelines
        [⟨"PipelineA", ["PipelineB"]⟩, ⟨"PipelineB", []⟩] .repository
        = .ok order ∧
      order.Perm (List.map Pipe.name
        [⟨"PipelineA", ["PipelineB"]⟩, ⟨"PipelineB", []⟩]) ∧
      ∀ u v, (u, v) ∈ edgesOf [⟨"PipelineA", ["PipelineB"]⟩, ⟨"PipelineB", []⟩]
        → List.Sublist [u, v] order :=
  c1_sort_forCreation
    [⟨"PipelineA", ["PipelineB"]⟩, ⟨"PipelineB", []⟩]
    (fun s => if s = "PipelineB" then 0 else 1)
    (by decide) (by decide) (by decide)

/-! ## Refresh-strategy orchestration trace (claim C7)

The existing-workspace branch of `orchestrator` (deployment_main.py lines
164-183) runs: add_security_group_to_workspace, list_workspace_all_items,
delete_old_items (environments outright, then pipelines in reversed creation
order — workspace_item_utilities.py lines 189-247), wait_for_items_deletion
(polling for "_Old"-suffixed items, lines 42-79), then deploy_artifacts.
`add_old_suffix_to_items` (lines 89-170) exists in the source but is never
invoked, so the trace contains no rename action. -/

inductive FabricAction where
  | renameItem (itemId newName : String)
  | deleteItem (itemId : String)
  | listItems
  | waitForDeletion
  | deployArtifacts
  | addSecurityGroup
  deriving DecidableEq, Repr

/-- Python `s.lower()` on an item-type string. -/
def strLower (s : String) : Text := s.data.map lowerChar

/-- Python `s.endswith("_Old")`. -/
def endsWithOld (s : String) : Bool :=
  isPre ['d', 'l', 'O', '_'] s.data.reverse

/-- The remote calls issued by `delete_old_items` (lines 196-245): delete
every environment-typed item, then delete the data-pipeline items named by
the reversed creation order. -/
def delete_old_items_actions (items : List WsItem) (pipes : List Pipe) :
    Except String (List FabricAction) :=
  let envDeletes := (items.filter
      (fun it => strLower it.type = "environment".data)).map
    (fun it => FabricAction.deleteItem it.id)
  match sort_datapipelines pipes .repository with
  | .error e => .error e
  | .ok publish_order =>
    let pipeDeletes := publish_order.reverse.filterMap
      (fun nm =>
        match items.find? (fun it => it.displayName = nm) with
        | some it =>
          if strLower it.type = "datapipeline".data
          then some (FabricAction.deleteItem it.id)
          else none
        | none => none)
    .ok (envDeletes ++ pipeDeletes)

/-- The action trace of the existing-workspace branch of `orchestrator`
(lines 164-183): a `delete_old_items` failure skips the wait and is collected
as a non-fatal error; `deploy_artifacts` always follows. -/
def orchestrator_refresh_actions (items : List WsItem) (pipes : List Pipe) :
    List FabricAction :=
  [FabricAction.addSecurityGroup, FabricAction.listItems] ++
  (match delete_old_items_actions items pipes with
   | .ok acts => acts ++ [FabricAction.waitForDeletion]
   | .error _ => []) ++
  [FabricAction.deployArtifacts]

/-- The renames `add_old_suffix_to_items` (lines 89-170) would issue if it
were called: every notebook or datapipeline item not already carrying the
"_Old" suffix is renamed to its name plus "_Old". -/
def add_old_suffix_actions (items : List WsItem) : List FabricAction :=
  (items.filter (fun it =>
      (strLower it.type = "notebook".data
        || strLower it.type = "datapipeline".data)
      && !(endsWithOld it.displayName))).map
    (fun it => FabricAction.renameItem it.id (it.displayName ++ "_Old"))

/-- C7 (code evaluated at the failing input): with a live notebook and a live
pipeline in the workspace, the Refresh run deletes the pipeline and waits,
but performs no rename — although the rename helper, had it been called,
would have renamed both items. The claim's rename-then-wait behaviour is
absent from the orchestration. -/
theorem c7_refresh_never_renames :
    orchestrator_refresh_actions
        [⟨"id-nb", "NB1", "Notebook", ""⟩, ⟨"id-p1", "P1", "DataPipeline", ""⟩]
        [⟨"P1", []⟩]
      = [.addSecurityGroup, .listItems, .deleteItem "id-p1",
         .waitForDeletion, .deployArtifacts] ∧
    (orchestrator_refresh_actions
        [⟨"id-nb", "NB1", "Notebook", ""⟩, ⟨"id-p1", "P1", "DataPipeline", ""⟩]
        [⟨"P1", []⟩]).all
      (fun a => match a with
        | .renameItem _ _ => false
        | _ => true) = true ∧
    add_old_suffix_actions
        [⟨"id-nb", "NB1", "Notebook", ""⟩, ⟨"id-p1", "P1", "DataPipeline", ""⟩]
      = [.renameItem "id-nb" "NB1_Old", .renameItem "id-p1" "P1_Old"] := by
  refine ⟨?_, ?_, ?_⟩ <;> rfl

/-! ## Notebook content rewriting (`update_notebook_content`, lines 261-343,
claim C10)

The regex searches are modelled over `Text`: the DOTALL metadata-block search
`# META\s*\{.*?# META\s*\}` becomes an existence check over suffixes; the
`"default_lakehouse_name": "(.*?)"` search (no DOTALL, so the capture crosses
no newline) returns the leftmost capture; the `count=1` substitutions replace
the leftmost (shortest-inner) match. -/

/-- Does `# META\s*\}` match at the start of this suffix, and how many
characters does the match consume? -/
def metaCloseLen (s : Text) : Option Nat :=
  if isPre "# META".data s then
    let afterWS := (s.drop 6).dropWhile isPySpace
    match afterWS with
    | '\x7d' :: _ => some (6 + ((s.drop 6).takeWhile isPySpace).length + 1)
    | _ => none
  else none

/-- Does `# META\s*\{` match at the start of this suffix, with a later
`# META\s*\}` closing it? -/
def metaOpenBlockAt (s : Text) : Bool :=
  isPre "# META".data s &&
    (match (s.drop 6).dropWhile isPySpace with
     | '\x7b' :: rest => rest.tails.any (fun t => (metaCloseLen t).isSome)
     | _ => false)

/-- The DOTALL search for `(# META\s*\{.*?# META\s*\})` finds some match. -/
def hasMetaBlock (s : Text) : Bool :=
  s.tails.any metaOpenBlockAt

def NAME_LIT : Text := "\"default_lakehouse_name\": \"".data

/-- Capture of `"default_lakehouse_name": "(.*?)"` anchored at this suffix:
the literal prefix followed by a closing quote with no newline in between. -/
def captureAt (s : Text) : Option Text :=
  if isPre NAME_LIT s then
    let rest := s.drop NAME_LIT.length
    let cap := rest.takeWhile (fun c => !(c = '"' || c = '\n'))
    match rest.drop cap.length with
    | '"' :: _ => some cap
    | _ => none
  else none

/-- Leftmost match of the `default_lakehouse_name` capture (lines 287-290). -/
def findLakehouseName (s : Text) : Option Text :=
  s.tails.findSome? captureAt

def lookupT (d : List (Text × Text)) (k : Text) : Option Text :=
  (d.find? (fun p => p.1 = k)).map (fun p => p.2)

/-- Lines 287-296: the lakehouse the notebook should point at — the current
name from the metadata, overridden to "Bronze" when it is empty or not in the
dictionary and the target folder is a Data_Ingestion / Data_Non_Security
layer. -/
def targetLakehouseName (content : Text) (lakehouseDict : List (Text × Text))
    (targetFolder : Text) : Text :=
  let current := (findLakehouseName content).getD []
  if (current = [] || (lookupT lakehouseDict current).isNone)
      && (occursIn "Data_Ingestion".data targetFolder
          || occursIn "Data_Non_Security".data targetFolder) then
    "Bronze".data
  else
    current

/-- `# META\s+"dependencies":\s*\{` anchored match length. -/
def depOpenLen (s : Text) : Option Nat :=
  if isPre "# META".data s then
    let w := ((s.drop 6).takeWhile isPySpace).length
    if w = 0 then none
    else
      let t := s.drop (6 + w)
      if isPre "\"dependencies\":".data t then
        let t2 := t.drop 15
        let w2 := (t2.takeWhile isPySpace).length
        match t2.drop w2 with
        | '\x7b' :: _ => some (6 + w + 15 + w2 + 1)
        | _ => none
      else none
  else none

/-- Length up to and including the first `# META\s*\}` in `t` (the non-greedy
`.*?` selects the earliest close). -/
def findCloseSpan : Text → Option Nat
  | [] => metaCloseLen []
  | c :: rest =>
    match metaCloseLen (c :: rest) with
    | some l => some l
    | none => (findCloseSpan rest).map (fun l => l + 1)

/-- Full anchored match length of `(# META\s+"dependencies":\s*\{.*?# META\s*\})`. -/
def depBlockLen (s : Text) : Option Nat :=
  (depOpenLen s).bind (fun o => (findCloseSpan (s.drop o)).map (fun l => o + l))

def hasDepBlock (s : Text) : Bool :=
  s.tails.any (fun t => (depBlockLen t).isSome)

/-- `re.sub(..., count=1)`: replace the leftmost match (its length given by
`f` at the match position) with `repl`. -/
def substFirst (f : Text → Option Nat) (repl : Text) : Text → Text
  | [] => match f [] with
    | some l => repl ++ ([] : Text).drop l
    | none => []
  | c :: rest => match f (c :: rest) with
    | some l => repl ++ (c :: rest).drop l
    | none => c :: substFirst f repl rest

def NL : Text := ['\n']
def META_PFX : Text := "    # META ".data

/-- `json.dumps(new_dependencies, indent=4)` with every line prefixed by
`    # META ` (lines 307-328); identifier strings are assumed free of JSON
escapes. -/
def buildDepBlock (name id wsId : Text) : Text :=
  META_PFX ++ "\x7b".data ++ NL ++
  META_PFX ++ "    \"lakehouse\": \x7b".data ++ NL ++
  META_PFX ++ "        \"default_lakehouse\": \"".data ++ id
    ++ "\",".data ++ NL ++
  META_PFX ++ "        \"default_lakehouse_name\": \"".data ++ name
    ++ "\",".data ++ NL ++
  META_PFX ++ "        \"default_lakehouse_workspace_id\": \"".data ++ wsId
    ++ "\",".data ++ NL ++
  META_PFX ++ "        \"known_lakehouses\": [".data ++ NL ++
  META_PFX ++ "            \x7b".data ++ NL ++
  META_PFX ++ "                \"id\": \"".data ++ id ++ "\"".data ++ NL ++
  META_PFX ++ "            \x7d".data ++ NL ++
  META_PFX ++ "        ]".data ++ NL ++
  META_PFX ++ "    \x7d".data ++ NL ++
  META_PFX ++ "\x7d".data

/-- Lines 320-341: replace the existing dependencies block, or insert one
before the metadata block's closing line. -/
def performDepUpdate (content name id wsId : Text) : Text :=
  let dep := buildDepBlock name id wsId
  if hasDepBlock content then
    substFirst depBlockLen dep content
  else
    substFirst metaCloseLen (dep ++ NL ++ "# META \x7d".data) content

/-- `update_notebook_content` (lines 261-343).  Every early-return path hands
back the input unchanged; none of the modelled paths can raise. -/
def update_notebook_content (content : Text)
    (lakehouseDict : List (Text × Text)) (workspaceId : Text)
    (targetFolder : Text) : Text :=
  if !hasMetaBlock content then
    content
  else
    let name := targetLakehouseName content lakehouseDict targetFolder
    if name = [] then
      content
    else
      match lookupT lakehouseDict name with
      | none => content
      | some id =>
        if id = [] then content
        else performDepUpdate content name id workspaceId

/-- C10: when no `# META { ... # META }` metadata block occurs in the
notebook content, or the target lakehouse name is empty or cannot be resolved
to a non-empty identifier in the supplied lakehouse dictionary,
`update_notebook_content` returns the input content byte-identical (the
rewrite is a silent no-op; no error path exists on these branches). -/
theorem c10_update_notebook_content_noop (content : Text)
    (lakehouseDict : List (Text × Text)) (workspaceId targetFolder : Text)
    (h : hasMetaBlock content = false ∨
      targetLakehouseName content lakehouseDict targetFolder = [] ∨
      lookupT lakehouseDict
        (targetLakehouseName content lakehouseDict targetFolder) = none ∨
      lookupT lakehouseDict
        (targetLakehouseName content lakehouseDict targetFolder) = some []) :
    update_notebook_content content lakehouseDict workspaceId targetFolder
      = content := by
  unfold update_notebook_content
  rcases h with h | h | h | h
  · rw [h]
    rfl
  · by_cases hm : hasMetaBlock content
    · simp only [hm, Bool.not_true, if_neg Bool.false_ne_true]
      rw [if_pos h]
    · simp only [hm]
      rfl
  · by_cases hm : hasMetaBlock content
    · simp only [hm, Bool.not_true, if_neg Bool.false_ne_true]
      by_cases hn : targetLakehouseName content lakehouseDict targetFolder = []
      · rw [if_pos hn]
      · rw [if_neg hn, h]
    · simp only [hm]
      rfl
  · by_cases hm : hasMetaBlock content
    · simp only [hm, Bool.not_true, if_neg Bool.false_ne_true]
      by_cases hn : targetLakehouseName content lakehouseDict targetFolder = []
      · rw [if_pos hn]
      · rw [if_neg hn, h]
        rfl
    · simp only [hm]
      rfl

/-- C10 witness: a content string with no metadata block is returned
unchanged, and a content string whose metadata block names a lakehouse absent
from the dictionary is returned unchanged. -/
theorem c10_update_notebook_content_noop_witness :
    update_notebook_content "print(1)".data [] "W".data "Ops".data
      = "print(1)".data ∧
    hasMetaBlock "print(1)".data = false :=
  ⟨c10_update_notebook_content_noop "print(1)".data [] "W".data "Ops".data
    (Or.inl (by decide)),
   by decide⟩

end NotebookDeployment
